import Mathlib

/- Verification development for the mkdocs-material-admonitions plugin core.

   Shallow embedding conventions:
   * JavaScript strings are modelled as `List Char` (`Str`); document buffers
     as lists of newline-free lines, matching the line arrays the code builds
     by splitting the source on newlines.
   * `while` loops become fuel-indexed structural recursions whose loop guard
     is checked inside the body, so the fuel is only an upper bound on the
     number of iterations (each iteration advances the scan index by at least
     one, so a fuel of `lines.length` always suffices).
   * Fallible functions return `Option`, mirroring the `null` results of the
     source. -/

namespace Mkdocs

abbrev Str := List Char

/-- JavaScript regular-expression whitespace class: the characters matched by
the regex class used in the header pattern, and stripped by trimming. -/
def jsWhitespace (c : Char) : Bool :=
  decide (c.toNat = 0x20 ∨ c.toNat = 0x09 ∨ c.toNat = 0x0a ∨ c.toNat = 0x0b ∨
    c.toNat = 0x0c ∨ c.toNat = 0x0d ∨ c.toNat = 0xa0 ∨ c.toNat = 0x1680 ∨
    (0x2000 ≤ c.toNat ∧ c.toNat ≤ 0x200a) ∨ c.toNat = 0x2028 ∨ c.toNat = 0x2029 ∨
    c.toNat = 0x202f ∨ c.toNat = 0x205f ∨ c.toNat = 0x3000 ∨ c.toNat = 0xfeff)

/-- JavaScript line terminators, the characters a regex `.` does not match. -/
def jsLineTerm (c : Char) : Bool :=
  decide (c.toNat = 0x0a ∨ c.toNat = 0x0d ∨ c.toNat = 0x2028 ∨ c.toNat = 0x2029)

/-- The character class `[A-Za-z]` of the header regex. -/
def asciiLetter (c : Char) : Bool :=
  decide ((65 ≤ c.toNat ∧ c.toNat ≤ 90) ∨ (97 ≤ c.toNat ∧ c.toNat ≤ 122))

/-- The character class `[\w-]` of the header regex, i.e. `[A-Za-z0-9_-]`. -/
def wordChar (c : Char) : Bool :=
  asciiLetter c || decide ((48 ≤ c.toNat ∧ c.toNat ≤ 57) ∨ c = '_' ∨ c = '-')

/-- `String.prototype.toLowerCase` restricted to the characters that can occur
in a matched type token (ASCII letters, digits, hyphen, underscore), where
Unicode lowercasing coincides with adding 32 to an upper-case ASCII letter. -/
def lowerChar (c : Char) : Char :=
  if 65 ≤ c.toNat ∧ c.toNat ≤ 90 then Char.ofNat (c.toNat + 32) else c

/-- `String.prototype.trim`: strip leading and trailing whitespace. -/
def trimL (s : Str) : Str :=
  ((s.dropWhile jsWhitespace).reverse.dropWhile jsWhitespace).reverse

/-- The `AdmonitionMeta` record of the source. The source field `open` is a
Lean keyword, hence `openFlag` here. -/
structure AdmonitionMeta where
  calloutType : Str
  title : Option Str
  collapsible : Bool
  openFlag : Bool
deriving DecidableEq, Repr

/-- The `VALID_TYPES` whitelist of the source. -/
def VALID_TYPES : List Str :=
  [ ['n','o','t','e'], ['i','n','f','o'], ['t','i','p'],
    ['w','a','r','n','i','n','g'], ['i','m','p','o','r','t','a','n','t'],
    ['c','a','u','t','i','o','n'], ['d','a','n','g','e','r'], ['b','u','g'],
    ['e','x','a','m','p','l','e'], ['q','u','o','t','e'],
    ['f','a','i','l','u','r','e'], ['s','u','c','c','e','s','s'],
    ['q','u','e','s','t','i','o','n'] ]

/-- `parseTitle` of the source: trim, no text means no title, a leading double
or single quote takes the text up to the next same quote (or everything after
the quote when unterminated), anything else is the trimmed text verbatim. -/
def parseTitle (raw : Str) : Option Str :=
  let trimmed := trimL raw
  match trimmed with
  | [] => none
  | first :: rest =>
    if first = '"' ∨ first = '\'' then
      match rest.findIdx? (fun c => decide (c = first)) with
      | some j => some (rest.take j)
      | none => some rest
    else some trimmed

/-- Marker alternation `(!!!|\?\?\?\+?)` of the header regex. The regex tries
the branches left to right; after `???+` the pattern requires whitespace, and
falling back from `???+` to `???` would require the `+` itself to be
whitespace, which is impossible, so committing to the longer marker is
faithful to the backtracking semantics. -/
def matchMarker (l : Str) : Option (Str × Str) :=
  if l.take 3 = ['!','!','!'] then some (['!','!','!'], l.drop 3)
  else if l.take 4 = ['?','?','?','+'] then some (['?','?','?','+'], l.drop 4)
  else if l.take 3 = ['?','?','?'] then some (['?','?','?'], l.drop 3)
  else none

/-- The full header regex `^(!!!|\?\?\?\+?)\s+([A-Za-z][\w-]*)(.*)?$` as a
deterministic matcher returning `(marker, type token, title region)`.
Greedy `\s+` and `[\w-]*` need no backtracking because a letter is never
whitespace and `(.*)?$` accepts any remainder without line terminators
(a JavaScript `.` does not match a line terminator, and `$` without the `m`
flag only matches at the very end of the input). -/
def headerMatch (line : Str) : Option (Str × Str × Str) :=
  match matchMarker line with
  | none => none
  | some (marker, rest) =>
    let ws := rest.takeWhile jsWhitespace
    let afterWs := rest.dropWhile jsWhitespace
    if ws = [] then none
    else
      match afterWs with
      | [] => none
      | c :: tl =>
        if asciiLetter c then
          let tokTail := tl.takeWhile wordChar
          let titleRegion := tl.dropWhile wordChar
          if titleRegion.any jsLineTerm then none
          else some (marker, c :: tokTail, titleRegion)
        else none

/-- `parseHeader` of the source. -/
def parseHeader (line : Str) : Option AdmonitionMeta :=
  match headerMatch line with
  | none => none
  | some (marker, tok, titleRegion) =>
    let rawType := tok.map lowerChar
    let title := parseTitle titleRegion
    let calloutType := if VALID_TYPES.contains rawType then rawType else ['n','o','t','e']
    let collapsible : Bool := marker.take 3 == ['?','?','?']
    let openFlag : Bool := marker == ['?','?','?','+'] || marker == ['!','!','!']
    some ⟨calloutType, title, collapsible, openFlag⟩

/-- `AdmonitionParseOptions` of the source: the field is optional, and an
absent value is falsy in the `options.endOnDoubleBlank && ...` test. -/
structure AdmonitionParseOptions where
  endOnDoubleBlank : Option Bool := none
deriving DecidableEq, Repr

/-- Effective truthiness of `options.endOnDoubleBlank`. -/
def AdmonitionParseOptions.effDbl (o : AdmonitionParseOptions) : Bool :=
  o.endOnDoubleBlank.getD false

structure ExtractResult where
  contentLines : List Str
  endLine : Nat
deriving DecidableEq, Repr

def spaces4 : Str := [' ', ' ', ' ', ' ']

/-- The scanning loop of `extractContentFromLines` (admonition.ts). State:
current line index, accumulated content lines, the `sawIndented` flag and the
consecutive-empty-line counter. The fuel only bounds the iteration count. -/
def extractGo (lines : List Str) (dbl : Bool) :
    Nat → Nat → List Str → Bool → Nat → List Str × Nat × Bool
  | 0, line, acc, saw, _ => (acc, line, saw)
  | fuel + 1, line, acc, saw, emptyRun =>
    if line < lines.length then
      let text := lines.getD line []
      if text = [] then
        if dbl ∧ 2 ≤ emptyRun + 1 then (acc, line, saw)
        else extractGo lines dbl fuel (line + 1) (acc ++ [[]]) saw (emptyRun + 1)
      else if text.head? = some '\t' then
        extractGo lines dbl fuel (line + 1) (acc ++ [text.tail]) true 0
      else if text.take 4 = spaces4 then
        extractGo lines dbl fuel (line + 1) (acc ++ [text.drop 4]) true 0
      else (acc, line, saw)
    else (acc, line, saw)

/-- `extractContentFromLines` of admonition.ts. The source declares
`options: AdmonitionParseOptions = {}`; call sites that omit the argument are
modelled by passing `{}` explicitly. -/
def extractContentFromLines (lines : List Str) (startLine : Nat)
    (options : AdmonitionParseOptions) : Option ExtractResult :=
  let res := extractGo lines options.effDbl lines.length startLine [] false 0
  if res.2.2 then some ⟨res.1, res.2.1⟩ else none

/-- The scanning loop of the fallback post-processor's private
`extractContentFromLines` (main.ts), which has no empty-run counter. -/
def fallbackExtractGo (lines : List Str) :
    Nat → Nat → List Str → Bool → List Str × Nat × Bool
  | 0, line, acc, saw => (acc, line, saw)
  | fuel + 1, line, acc, saw =>
    if line < lines.length then
      let text := lines.getD line []
      if text = [] then fallbackExtractGo lines fuel (line + 1) (acc ++ [[]]) saw
      else if text.head? = some '\t' then
        fallbackExtractGo lines fuel (line + 1) (acc ++ [text.tail]) true
      else if text.take 4 = spaces4 then
        fallbackExtractGo lines fuel (line + 1) (acc ++ [text.drop 4]) true
      else (acc, line, saw)
    else (acc, line, saw)

/-- The fallback post-processor's `extractContentFromLines` (main.ts). -/
def fallbackExtractContentFromLines (lines : List Str) (startLine : Nat) :
    Option ExtractResult :=
  let res := fallbackExtractGo lines lines.length startLine [] false
  if res.2.2 then some ⟨res.1, res.2.1⟩ else none

-- Sanity checks against the behaviour of the original code.
example :
    extractContentFromLines [[' ',' ',' ',' ','a'], [], []] 0 ⟨some true⟩ =
      some ⟨[['a'], []], 2⟩ := by decide

example :
    extractContentFromLines [[' ',' ',' ',' ','a'], [], [], [' ',' ',' ',' ','b']] 0 {} =
      some ⟨[['a'], [], [], ['b']], 4⟩ := by decide

example : parseHeader ['!','!','!',' ','n','o','t','e'] =
    some ⟨['n','o','t','e'], none, false, true⟩ := by decide

example : parseHeader ['?','?','?','+',' ','T','I','P',' ','"','T','"'] =
    some ⟨['t','i','p'], some ['T'], true, true⟩ := by decide

example : parseHeader ['?','?','?',' ','b','o','g','u','s'] =
    some ⟨['n','o','t','e'], none, true, false⟩ := by decide

example : parseHeader ['!','!','!','n','o','t','e'] = none := by decide

example : parseTitle ['\'','H','i'] = some ['H','i'] := by decide

/- ------------------------------------------------------------------
   markdown-it block-rule integration (main.ts): line metrics derived
   from line strings, the state-based `extractContent`, and the
   `mkdocsAdmonitionRule` block rule.
   ------------------------------------------------------------------ -/

/-- markdown-it's indentation column count for a line: a space advances one
column, a tab advances to the next multiple of four (`state.sCount`). -/
def sCountGo : Str → Nat → Nat
  | [], col => col
  | c :: rest, col =>
    if c = ' ' then sCountGo rest (col + 1)
    else if c = '\t' then sCountGo rest (col + (4 - col % 4))
    else col

def sCountOf (l : Str) : Nat := sCountGo l 0

/-- markdown-it's `tShift`: the number of leading space or tab characters. -/
def tShiftOf (l : Str) : Nat :=
  (l.takeWhile (fun c => decide (c = ' ' ∨ c = '\t'))).length

/-- markdown-it's `state.isEmpty(line)`: `bMarks + tShift ≥ eMarks`, i.e. the
line consists only of spaces and tabs. -/
def lineIsEmpty (l : Str) : Bool := tShiftOf l == l.length

structure StateExtract where
  content : Str
  endLine : Nat
deriving DecidableEq, Repr

/-- `Array.prototype.join("\n")` on the collected content lines. -/
def joinLines (ls : List Str) : Str := List.intercalate ['\n'] ls

/-- The scanning loop of `extractContent` (main.ts): blank lines are appended
as empty entries, a line with fewer than four columns of indentation relative
to `blkIndent` stops the scan, and a qualifying line is pushed after skipping
one tab or up to four spaces from `bMarks + blkIndent`. -/
def extractContentGo (lines : List Str) (blkIndent : Nat) (endL : Nat) :
    Nat → Nat → List Str → Bool → List Str × Nat × Bool
  | 0, n, acc, saw => (acc, n, saw)
  | fuel + 1, n, acc, saw =>
    if n < endL then
      let l := lines.getD n []
      if lineIsEmpty l then
        extractContentGo lines blkIndent endL fuel (n + 1) (acc ++ [[]]) saw
      else if (sCountOf l : Int) - (blkIndent : Int) < 4 then (acc, n, saw)
      else
        let fromIndent := l.drop blkIndent
        let stripped :=
          if fromIndent.head? = some '\t' then fromIndent.tail
          else fromIndent.drop
            (min ((fromIndent.takeWhile (fun c => decide (c = ' '))).length) 4)
        extractContentGo lines blkIndent endL fuel (n + 1) (acc ++ [stripped]) true
    else (acc, n, saw)

/-- `extractContent` (main.ts): returns the joined content and the exclusive
end line, or `null` when no indented line was found. -/
def extractContent (lines : List Str) (blkIndent : Nat) (startLine endL : Nat) :
    Option StateExtract :=
  let res := extractContentGo lines blkIndent endL endL startLine [] false
  if res.2.2 then some ⟨joinLines res.1, res.2.1⟩ else none

def admonitionTokenType : Str :=
  ['m','k','d','o','c','s','_','a','d','m','o','n','i','t','i','o','n']

/-- The token pushed by the block rule (`state.push` plus the fields the rule
assigns). -/
structure MdToken where
  ttype : Str
  block : Bool
  tmap : Nat × Nat
  meta : AdmonitionMeta
  content : Str
deriving DecidableEq, Repr

/-- The slice of the markdown-it block state the rule reads and writes:
the document's lines, `blkIndent`, the parser cursor `state.line`, and the
token stream. -/
structure MdState where
  lines : List Str
  blkIndent : Nat
  linePos : Nat
  tokens : List MdToken
deriving DecidableEq, Repr

/-- `mkdocsAdmonitionRule` (main.ts). `start = bMarks + tShift` and
`max = eMarks`, so `start + 3 > max` is `tShift + 3 > length` and the
examined `lineText` is the line with its leading spaces and tabs dropped.
Returns the rule's boolean result and the updated state. -/
def mkdocsAdmonitionRule (st : MdState) (startLine endLine : Nat)
    (silent : Bool) : Bool × MdState :=
  let raw := st.lines.getD startLine []
  let shift := tShiftOf raw
  if shift + 3 > raw.length then (false, st)
  else
    let lineText := raw.drop shift
    if ¬ (lineText.take 3 = ['!','!','!'] ∨ lineText.take 3 = ['?','?','?']) then
      (false, st)
    else
      match parseHeader (trimL lineText) with
      | none => (false, st)
      | some meta =>
        if silent then (true, st)
        else
          match extractContent st.lines st.blkIndent (startLine + 1) endLine with
          | none => (false, st)
          | some ex =>
            let tok : MdToken :=
              ⟨admonitionTokenType, true, (startLine, ex.endLine), meta, ex.content⟩
            (true, { st with tokens := st.tokens ++ [tok], linePos := ex.endLine })

/- ------------------------------------------------------------------
   DOM container construction (admonition.ts `buildCalloutContainer`).
   ------------------------------------------------------------------ -/

/-- A DOM element: tag, class name, attributes in insertion order, text
content and child elements. -/
structure Elem where
  tag : Str
  className : Str
  attrs : List (Str × Str)
  textContent : Str
  children : List Elem
deriving Repr

def calloutClassName : Str :=
  ['c','a','l','l','o','u','t',' ','m','k','d','o','c','s','-',
   'a','d','m','o','n','i','t','i','o','n']
def calloutTitleClass : Str :=
  ['c','a','l','l','o','u','t','-','t','i','t','l','e']
def calloutTitleInnerClass : Str :=
  ['c','a','l','l','o','u','t','-','t','i','t','l','e','-','i','n','n','e','r']
def calloutContentClass : Str :=
  ['c','a','l','l','o','u','t','-','c','o','n','t','e','n','t']
def dataCalloutAttr : Str := ['d','a','t','a','-','c','a','l','l','o','u','t']
def openAttrName : Str := ['o','p','e','n']

/-- `buildCalloutContainer` (admonition.ts). The source returns pointers to
both the root and its content region; the content region is the final child
of the root built here. Attribute and child order follow the source:
`data-callout`, then `open` only when the block is collapsible and open;
a summary title whenever collapsible (title text defaulting to empty), a div
title only for non-collapsible blocks whose title is truthy — the source's
`else if (meta.title)` is a JavaScript truthiness test, so both a missing
title and an empty-string title suppress the title region — then the
content div. -/
def buildCalloutContainer (meta : AdmonitionMeta) : Elem :=
  let attrs := [(dataCalloutAttr, meta.calloutType)] ++
    (if meta.collapsible ∧ meta.openFlag then [(openAttrName, ([] : Str))] else [])
  let titleChildren :=
    if meta.collapsible then
      [Elem.mk ['s','u','m','m','a','r','y'] calloutTitleClass [] []
        [Elem.mk ['s','p','a','n'] calloutTitleInnerClass [] (meta.title.getD []) []]]
    else
      match meta.title with
      | some t =>
        if t = [] then []
        else
          [Elem.mk ['d','i','v'] calloutTitleClass [] []
            [Elem.mk ['d','i','v'] calloutTitleInnerClass [] t []]]
      | none => []
  let contentEl := Elem.mk ['d','i','v'] calloutContentClass [] [] []
  Elem.mk (if meta.collapsible then ['d','e','t','a','i','l','s'] else ['d','i','v'])
    calloutClassName attrs [] (titleChildren ++ [contentEl])

-- A non-collapsible block with an empty-string title (reachable from a
-- quoted empty title) renders no title region, matching the source's
-- truthiness test; a non-empty title renders one.
example :
    (buildCalloutContainer ⟨['n','o','t','e'], some [], false, true⟩).children =
      [Elem.mk ['d','i','v'] calloutContentClass [] [] []] := rfl

example :
    (buildCalloutContainer ⟨['n','o','t','e'], some ['T'], false, true⟩).children.length =
      2 := rfl

/- ------------------------------------------------------------------
   Live preview range computation (livePreview.ts).
   ------------------------------------------------------------------ -/

/-- Character offset of the start of 0-indexed line `i` in the document
(CodeMirror's `doc.line (i+1) |>.from`): lines joined by single newlines. -/
def lineFrom (lines : List Str) : Nat → Nat
  | 0 => 0
  | i + 1 => lineFrom lines i + (lines.getD i []).length + 1

/-- Character offset of the end of 0-indexed line `i`
(CodeMirror's `doc.line (i+1) |>.to`). -/
def lineTo (lines : List Str) (i : Nat) : Nat :=
  lineFrom lines i + (lines.getD i []).length

/-- One selection range of the editor state. -/
structure SelRange where
  rfrom : Nat
  rto : Nat
deriving DecidableEq, Repr

/-- `selectionIntersects` (livePreview.ts): inclusive on both ends. -/
def selectionIntersects (sel : List SelRange) (f t : Nat) : Bool :=
  sel.any (fun r => decide (r.rfrom ≤ t ∧ f ≤ r.rto))

/-- A materialized replace range: the span, plus the meta and joined content
the widget carries. -/
structure Deco where
  dfrom : Nat
  dto : Nat
  meta : AdmonitionMeta
  content : Str
deriving DecidableEq, Repr

/-- The scanning loop of `buildDecorations` (livePreview.ts). At a recognized
block the span runs from the start of the header line to the end of the last
consumed content line; a block intersecting the selection adds no range but
the cursor still jumps to `extracted.endLine`. -/
def buildDecoGo (lines : List Str) (dbl : Bool) (sel : List SelRange) :
    Nat → Nat → List Deco → List Deco
  | 0, _, acc => acc
  | fuel + 1, line, acc =>
    if line < lines.length then
      let rawLine := lines.getD line []
      match parseHeader (trimL rawLine) with
      | none => buildDecoGo lines dbl sel fuel (line + 1) acc
      | some meta =>
        match extractContentFromLines lines (line + 1) ⟨some dbl⟩ with
        | none => buildDecoGo lines dbl sel fuel (line + 1) acc
        | some ex =>
          let endLineIndex := ex.endLine - 1
          let f := lineFrom lines line
          let t := lineTo lines endLineIndex
          let acc' :=
            if selectionIntersects sel f t then acc
            else acc ++ [⟨f, t, meta, joinLines ex.contentLines⟩]
          buildDecoGo lines dbl sel fuel ex.endLine acc'
    else acc

/-- `buildDecorations` (livePreview.ts): short-circuits to no ranges when the
live preview is disabled, otherwise scans the whole document. -/
def buildDecorations (lines : List Str) (sel : List SelRange)
    (dbl enabled : Bool) : List Deco :=
  if enabled then buildDecoGo lines dbl sel lines.length 0 [] else []

/-- The same scan with the selection check removed: every recognized block,
in scan order. Used to state that the selection only filters which blocks
emit a widget, never which lines are scanned. -/
def buildBlocksGo (lines : List Str) (dbl : Bool) :
    Nat → Nat → List Deco → List Deco
  | 0, _, acc => acc
  | fuel + 1, line, acc =>
    if line < lines.length then
      let rawLine := lines.getD line []
      match parseHeader (trimL rawLine) with
      | none => buildBlocksGo lines dbl fuel (line + 1) acc
      | some meta =>
        match extractContentFromLines lines (line + 1) ⟨some dbl⟩ with
        | none => buildBlocksGo lines dbl fuel (line + 1) acc
        | some ex =>
          let endLineIndex := ex.endLine - 1
          let f := lineFrom lines line
          let t := lineTo lines endLineIndex
          buildBlocksGo lines dbl fuel ex.endLine
            (acc ++ [⟨f, t, meta, joinLines ex.contentLines⟩])
    else acc

/-- All recognized admonition blocks of a document, in scan order. -/
def recognizedBlocks (lines : List Str) (dbl : Bool) : List Deco :=
  buildBlocksGo lines dbl lines.length 0 []

/- ------------------------------------------------------------------
   Behaviour of the core extraction scan.
   ------------------------------------------------------------------ -/

/-- How one consumed line relates to the content entry it produced: a blank
line becomes an empty entry, a tab-led line loses exactly its leading tab,
and a line led by four literal spaces loses exactly those four spaces. -/
def stepRel (orig entry : Str) : Prop :=
  (orig = [] ∧ entry = []) ∨
  (orig.head? = some '\t' ∧ entry = orig.tail) ∨
  (orig.head? ≠ some '\t' ∧ orig.take 4 = spaces4 ∧ entry = orig.drop 4)

/-- A line the scan accepts through the tab branch or the four-space branch. -/
def acceptedLine (l : Str) : Prop :=
  l ≠ [] ∧ (l.head? = some '\t' ∨ l.take 4 = spaces4)

/-- The character-stripping step of the reading-view extractor
(`extractContent`, main.ts): from `bMarks + blkIndent`, skip one leading tab,
or up to four leading literal spaces. -/
def stateStripped (blkIndent : Nat) (l : Str) : Str :=
  if (l.drop blkIndent).head? = some '\t' then (l.drop blkIndent).tail
  else (l.drop blkIndent).drop
    (min ((l.drop blkIndent).takeWhile (fun c => decide (c = ' '))).length 4)

/-- Full characterisation of the `extractContentFromLines` scanning loop:
the scan appends a block `tail` of entries, advances the line index by
`tail.length`, each entry comes from the corresponding buffer line by
`stepRel`, the `sawIndented` flag is set exactly when some accepted line was
consumed, and the scan stops at the end of the buffer, at a double blank, or
at a non-blank line with neither a leading tab nor four leading spaces. -/
theorem extractGo_succ (lines : List Str) (dbl : Bool) (fuel line : Nat)
    (acc : List Str) (saw : Bool) (emptyRun : Nat) :
    extractGo lines dbl (fuel + 1) line acc saw emptyRun =
      if line < lines.length then
        if lines.getD line [] = [] then
          if dbl ∧ 2 ≤ emptyRun + 1 then (acc, line, saw)
          else extractGo lines dbl fuel (line + 1) (acc ++ [[]]) saw (emptyRun + 1)
        else if (lines.getD line []).head? = some '\t' then
          extractGo lines dbl fuel (line + 1) (acc ++ [(lines.getD line []).tail]) true 0
        else if (lines.getD line []).take 4 = spaces4 then
          extractGo lines dbl fuel (line + 1) (acc ++ [(lines.getD line []).drop 4]) true 0
        else (acc, line, saw)
      else (acc, line, saw) := rfl

theorem extractGo_spec (lines : List Str) (dbl : Bool) :
    ∀ (fuel line : Nat) (acc : List Str) (saw : Bool) (emptyRun : Nat),
      lines.length ≤ fuel + line →
    ∃ (tail : List Str) (sawOut : Bool),
      extractGo lines dbl fuel line acc saw emptyRun =
          (acc ++ tail, line + tail.length, sawOut) ∧
      (sawOut = true ↔ (saw = true ∨
        ∃ k, k < tail.length ∧ acceptedLine (lines.getD (line + k) []))) ∧
      (tail ≠ [] → line + tail.length ≤ lines.length) ∧
      (∀ k, k < tail.length →
        stepRel (lines.getD (line + k) []) (tail.getD k [])) ∧
      (lines.length ≤ line + tail.length ∨
        (lines.getD (line + tail.length) [] = [] ∧ dbl = true ∧
          ((tail = [] ∧ 1 ≤ emptyRun) ∨
           (tail ≠ [] ∧ lines.getD (line + tail.length - 1) [] = []))) ∨
        (lines.getD (line + tail.length) [] ≠ [] ∧
         (lines.getD (line + tail.length) []).head? ≠ some '\t' ∧
         (lines.getD (line + tail.length) []).take 4 ≠ spaces4)) := by
  intro fuel
  induction fuel with
  | zero =>
    intro line acc saw emptyRun h
    refine ⟨[], saw, by simp [extractGo], by simp, by simp, by simp, ?_⟩
    left
    simp only [List.length_nil, Nat.add_zero]
    omega
  | succ fuel ih =>
    intro line acc saw emptyRun h
    by_cases hl : line < lines.length
    case neg =>
      have hstop : extractGo lines dbl (fuel + 1) line acc saw emptyRun =
          (acc, line, saw) := by
        rw [extractGo_succ, if_neg hl]
      refine ⟨[], saw, by simpa using hstop, by simp, by simp, by simp, ?_⟩
      left
      simp only [List.length_nil, Nat.add_zero]
      omega
    case pos =>
    by_cases ht : lines.getD line [] = []
    · by_cases hdb : dbl ∧ 2 ≤ emptyRun + 1
      · have hstop : extractGo lines dbl (fuel + 1) line acc saw emptyRun =
            (acc, line, saw) := by
          rw [extractGo_succ, if_pos hl, if_pos ht, if_pos hdb]
        refine ⟨[], saw, by simpa using hstop, by simp, by simp, by simp, ?_⟩
        refine Or.inr (Or.inl ⟨?_, hdb.1, Or.inl ⟨rfl, by omega⟩⟩)
        simpa using ht
      · have hstep : extractGo lines dbl (fuel + 1) line acc saw emptyRun =
            extractGo lines dbl fuel (line + 1) (acc ++ [[]]) saw (emptyRun + 1) := by
          rw [extractGo_succ, if_pos hl, if_pos ht, if_neg hdb]
        obtain ⟨tail', sawOut, heq, hsaw, hbound, hstepRel, hterm⟩ :=
          ih (line + 1) (acc ++ [[]]) saw (emptyRun + 1) (by omega)
        refine ⟨[] :: tail', sawOut, ?_, ?_, ?_, ?_, ?_⟩
        · rw [hstep, heq]
          simp only [Prod.mk.injEq]
          refine ⟨by simp, ?_, trivial⟩
          simp only [List.length_cons]
          omega
        · constructor
          · intro hs
            rcases hsaw.1 hs with hs' | ⟨k, hk, ha⟩
            · exact Or.inl hs'
            · refine Or.inr ⟨k + 1, ?_, ?_⟩
              · simp only [List.length_cons]
                omega
              · have e : line + (k + 1) = line + 1 + k := by omega
                rw [e]
                exact ha
          · intro hs
            apply hsaw.2
            rcases hs with hs' | ⟨k, hk, ha⟩
            · exact Or.inl hs'
            · cases k with
              | zero =>
                rw [Nat.add_zero, ht] at ha
                exact absurd rfl ha.1
              | succ k =>
                refine Or.inr ⟨k, ?_, ?_⟩
                · simp only [List.length_cons] at hk
                  omega
                · have e : line + 1 + k = line + (k + 1) := by omega
                  rw [e]
                  exact ha
        · intro _
          by_cases h' : tail' = []
          · subst h'
            simp only [List.length_cons, List.length_nil]
            omega
          · have := hbound h'
            simp only [List.length_cons]
            omega
        · intro k hk
          cases k with
          | zero =>
            simp only [Nat.add_zero, List.getD_cons_zero]
            exact Or.inl ⟨ht, rfl⟩
          | succ k =>
            simp only [List.getD_cons_succ]
            have e : line + (k + 1) = line + 1 + k := by omega
            rw [e]
            refine hstepRel k ?_
            simp only [List.length_cons] at hk
            omega
        · have e : line + ([] :: tail').length = line + 1 + tail'.length := by
            simp only [List.length_cons]
            omega
          rw [e]
          rcases hterm with h' | ⟨h1', h2', h3'⟩ | h'
          · exact Or.inl h'
          · refine Or.inr (Or.inl ⟨h1', h2', Or.inr ⟨by simp, ?_⟩⟩)
            rcases h3' with ⟨he, _⟩ | ⟨_, hb⟩
            · subst he
              simpa using ht
            · exact hb
          · exact Or.inr (Or.inr h')
    · by_cases htab : (lines.getD line []).head? = some '\t'
      · have hstep : extractGo lines dbl (fuel + 1) line acc saw emptyRun =
            extractGo lines dbl fuel (line + 1)
              (acc ++ [(lines.getD line []).tail]) true 0 := by
          rw [extractGo_succ, if_pos hl, if_neg ht, if_pos htab]
        obtain ⟨tail', sawOut, heq, hsaw, hbound, hstepRel, hterm⟩ :=
          ih (line + 1) (acc ++ [(lines.getD line []).tail]) true 0 (by omega)
        refine ⟨(lines.getD line []).tail :: tail', sawOut, ?_, ?_, ?_, ?_, ?_⟩
        · rw [hstep, heq]
          simp only [Prod.mk.injEq]
          refine ⟨by simp, ?_, trivial⟩
          simp only [List.length_cons]
          omega
        · constructor
          · intro _
            refine Or.inr ⟨0, by simp, ?_⟩
            simp only [Nat.add_zero]
            exact ⟨ht, Or.inl htab⟩
          · intro _
            exact hsaw.2 (Or.inl rfl)
        · intro _
          by_cases h' : tail' = []
          · subst h'
            simp only [List.length_cons, List.length_nil]
            omega
          · have := hbound h'
            simp only [List.length_cons]
            omega
        · intro k hk
          cases k with
          | zero =>
            simp only [Nat.add_zero, List.getD_cons_zero]
            exact Or.inr (Or.inl ⟨htab, rfl⟩)
          | succ k =>
            simp only [List.getD_cons_succ]
            have e : line + (k + 1) = line + 1 + k := by omega
            rw [e]
            refine hstepRel k ?_
            simp only [List.length_cons] at hk
            omega
        · have e : line + ((lines.getD line []).tail :: tail').length =
              line + 1 + tail'.length := by
            simp only [List.length_cons]
            omega
          rw [e]
          rcases hterm with h' | ⟨h1', h2', h3'⟩ | h'
          · exact Or.inl h'
          · refine Or.inr (Or.inl ⟨h1', h2', Or.inr ⟨by simp, ?_⟩⟩)
            rcases h3' with ⟨_, h0⟩ | ⟨_, hb⟩
            · exact absurd h0 (by omega)
            · exact hb
          · exact Or.inr (Or.inr h')
      · by_cases hsp : (lines.getD line []).take 4 = spaces4
        · have hstep : extractGo lines dbl (fuel + 1) line acc saw emptyRun =
              extractGo lines dbl fuel (line + 1)
                (acc ++ [(lines.getD line []).drop 4]) true 0 := by
            rw [extractGo_succ, if_pos hl, if_neg ht, if_neg htab, if_pos hsp]
          obtain ⟨tail', sawOut, heq, hsaw, hbound, hstepRel, hterm⟩ :=
            ih (line + 1) (acc ++ [(lines.getD line []).drop 4]) true 0 (by omega)
          refine ⟨(lines.getD line []).drop 4 :: tail', sawOut, ?_, ?_, ?_, ?_, ?_⟩
          · rw [hstep, heq]
            simp only [Prod.mk.injEq]
            refine ⟨by simp, ?_, trivial⟩
            simp only [List.length_cons]
            omega
          · constructor
            · intro _
              refine Or.inr ⟨0, by simp, ?_⟩
              simp only [Nat.add_zero]
              exact ⟨ht, Or.inr hsp⟩
            · intro _
              exact hsaw.2 (Or.inl rfl)
          · intro _
            by_cases h' : tail' = []
            · subst h'
              simp only [List.length_cons, List.length_nil]
              omega
            · have := hbound h'
              simp only [List.length_cons]
              omega
          · intro k hk
            cases k with
            | zero =>
              simp only [Nat.add_zero, List.getD_cons_zero]
              exact Or.inr (Or.inr ⟨htab, hsp, rfl⟩)
            | succ k =>
              simp only [List.getD_cons_succ]
              have e : line + (k + 1) = line + 1 + k := by omega
              rw [e]
              refine hstepRel k ?_
              simp only [List.length_cons] at hk
              omega
          · have e : line + ((lines.getD line []).drop 4 :: tail').length =
                line + 1 + tail'.length := by
              simp only [List.length_cons]
              omega
            rw [e]
            rcases hterm with h' | ⟨h1', h2', h3'⟩ | h'
            · exact Or.inl h'
            · refine Or.inr (Or.inl ⟨h1', h2', Or.inr ⟨by simp, ?_⟩⟩)
              rcases h3' with ⟨_, h0⟩ | ⟨_, hb⟩
              · exact absurd h0 (by omega)
              · exact hb
            · exact Or.inr (Or.inr h')
        · have hstop : extractGo lines dbl (fuel + 1) line acc saw emptyRun =
              (acc, line, saw) := by
            rw [extractGo_succ, if_pos hl, if_neg ht, if_neg htab, if_neg hsp]
          refine ⟨[], saw, by simpa using hstop, by simp, by simp, by simp, ?_⟩
          refine Or.inr (Or.inr ⟨?_, ?_, ?_⟩)
          · simpa using ht
          · simpa using htab
          · simpa using hsp

/-- Consequences of a successful `extractContentFromLines` run: the content
length accounts exactly for the scanned region, the end line stays within the
buffer, some line was accepted through the tab or four-space branch, every
entry is related to its buffer line by `stepRel`, and the scan stopped at the
buffer end, at a double blank, or at an insufficiently indented line. -/
theorem extractContentFromLines_some (lines : List Str) (s : Nat)
    (opts : AdmonitionParseOptions) (r : ExtractResult)
    (h : extractContentFromLines lines s opts = some r) :
    s + r.contentLines.length = r.endLine ∧
    r.endLine ≤ lines.length ∧
    (∃ k, k < r.contentLines.length ∧ acceptedLine (lines.getD (s + k) [])) ∧
    (∀ k, k < r.contentLines.length →
      stepRel (lines.getD (s + k) []) (r.contentLines.getD k [])) ∧
    (lines.length ≤ r.endLine ∨
      (lines.getD r.endLine [] = [] ∧ opts.effDbl = true ∧
        r.contentLines ≠ [] ∧ lines.getD (r.endLine - 1) [] = []) ∨
      (lines.getD r.endLine [] ≠ [] ∧
       (lines.getD r.endLine []).head? ≠ some '\t' ∧
       (lines.getD r.endLine []).take 4 ≠ spaces4)) := by
  obtain ⟨tail, sawOut, heq, hsaw, hbound, hstep, hterm⟩ :=
    extractGo_spec lines opts.effDbl lines.length s [] false 0 (by omega)
  have hval : extractContentFromLines lines s opts =
      if sawOut = true then some ⟨tail, s + tail.length⟩ else none := by
    simp only [extractContentFromLines]
    rw [heq]
    simp
  rw [hval] at h
  by_cases hs : sawOut = true
  case neg =>
    rw [if_neg hs] at h
    cases h
  case pos =>
    rw [if_pos hs] at h
    have hr := Option.some.inj h
    subst hr
    have hacc : ∃ k, k < tail.length ∧ acceptedLine (lines.getD (s + k) []) := by
      rcases hsaw.1 hs with h' | h'
      · cases h'
      · exact h'
    have hne : tail ≠ [] := by
      obtain ⟨k, hk, _⟩ := hacc
      intro he
      subst he
      simp at hk
    refine ⟨rfl, hbound hne, hacc, hstep, ?_⟩
    rcases hterm with h' | ⟨h1', h2', h3'⟩ | h'
    · exact Or.inl h'
    · rcases h3' with ⟨_, h0⟩ | ⟨_, hb⟩
      · exact absurd h0 (by omega)
      · exact Or.inr (Or.inl ⟨h1', h2', hne, hb⟩)
    · exact Or.inr (Or.inr h')

/-- C10: whenever `extractContentFromLines` succeeds, the result satisfies
`startLine ≤ endLine ≤ lines.length` and `contentLines` has exactly
`endLine - startLine` entries, one per consumed line (so the line at
`endLine` was not consumed). -/
theorem claim_c10_extract_invariants (lines : List Str) (s : Nat)
    (opts : AdmonitionParseOptions) (r : ExtractResult)
    (h : extractContentFromLines lines s opts = some r) :
    s ≤ r.endLine ∧ r.endLine ≤ lines.length ∧
    r.contentLines.length = r.endLine - s := by
  obtain ⟨h1, h2, _, _, _⟩ := extractContentFromLines_some lines s opts r h
  omega

/-- C10 witness: the invariants hold on a concrete successful extraction. -/
theorem claim_c10_witness :
    (0 : Nat) ≤ 1 ∧ (1 : Nat) ≤ 1 ∧ (1 : Nat) = 1 - 0 :=
  claim_c10_extract_invariants [[' ',' ',' ',' ','x']] 0 {} ⟨[['x']], 1⟩ (by decide)

/-- C3 counterexample: the claim as stated says a non-blank candidate line
that does not start with a tab qualifies (and is consumed) whenever its
indentation is at least four columns relative to the block's base indent,
but the line made of three spaces, a tab and `x` has four columns of
indentation and is nevertheless rejected, terminating the scan with no
content. -/
theorem claim_c3_counterexample :
    ¬ (∀ l : Str, l ≠ [] → l.head? ≠ some '\t' → 4 ≤ sCountOf l →
        (extractContentFromLines [l] 0 {}).isSome = true) := by
  intro hclaim
  exact absurd
    (hclaim [' ', ' ', ' ', '\t', 'x'] (by decide) (by decide) (by decide))
    (by decide)

/-- C2 counterexample: extraction invoked without an explicit option value
does not behave as if double-blank termination were enabled — on a buffer
with a content line, two blanks and another content line, the default
options scan everything while explicit `endOnDoubleBlank = true` stops at
the second blank. -/
theorem claim_c2_counterexample :
    ¬ (∀ (lines : List Str) (s : Nat),
        extractContentFromLines lines s {} =
          extractContentFromLines lines s ⟨some true⟩) := by
  intro hclaim
  exact absurd
    (hclaim [[' ',' ',' ',' ','a'], [], [], [' ',' ',' ',' ','b']] 0)
    (by decide)

/-- C2 (amended): an omitted `endOnDoubleBlank` option is treated as
disabled: extraction with the default options behaves exactly like
`endOnDoubleBlank = false`, and the fallback post-processor's line extractor
(which accepts no options at all) coincides with that default behaviour. -/
theorem claim_c2_amended :
    (∀ (lines : List Str) (s : Nat),
      extractContentFromLines lines s {} =
        extractContentFromLines lines s ⟨some false⟩) ∧
    (∀ (lines : List Str) (s : Nat),
      fallbackExtractContentFromLines lines s =
        extractContentFromLines lines s {}) := by
  constructor
  · intro lines s
    rfl
  · intro lines s
    have key : ∀ (fuel line : Nat) (acc : List Str) (saw : Bool) (emptyRun : Nat),
        extractGo lines false fuel line acc saw emptyRun =
          fallbackExtractGo lines fuel line acc saw := by
      intro fuel
      induction fuel with
      | zero =>
        intro line acc saw emptyRun
        rfl
      | succ fuel ih =>
        intro line acc saw emptyRun
        rw [extractGo_succ]
        show _ = fallbackExtractGo lines (fuel + 1) line acc saw
        rw [show fallbackExtractGo lines (fuel + 1) line acc saw =
            if line < lines.length then
              if lines.getD line [] = [] then
                fallbackExtractGo lines fuel (line + 1) (acc ++ [[]]) saw
              else if (lines.getD line []).head? = some '\t' then
                fallbackExtractGo lines fuel (line + 1) (acc ++ [(lines.getD line []).tail]) true
              else if (lines.getD line []).take 4 = spaces4 then
                fallbackExtractGo lines fuel (line + 1) (acc ++ [(lines.getD line []).drop 4]) true
              else (acc, line, saw)
            else (acc, line, saw) from rfl]
        by_cases hl : line < lines.length
        · rw [if_pos hl, if_pos hl]
          by_cases ht : lines.getD line [] = []
          · rw [if_pos ht, if_pos ht, if_neg (by simp)]
            exact ih (line + 1) (acc ++ [[]]) saw (emptyRun + 1)
          · rw [if_neg ht, if_neg ht]
            by_cases htab : (lines.getD line []).head? = some '\t'
            · rw [if_pos htab, if_pos htab]
              exact ih (line + 1) (acc ++ [(lines.getD line []).tail]) true 0
            · rw [if_neg htab, if_neg htab]
              by_cases hsp : (lines.getD line []).take 4 = spaces4
              · rw [if_pos hsp, if_pos hsp]
                exact ih (line + 1) (acc ++ [(lines.getD line []).drop 4]) true 0
              · rw [if_neg hsp, if_neg hsp]
        · rw [if_neg hl, if_neg hl]
    simp only [fallbackExtractContentFromLines, extractContentFromLines]
    rw [show ({} : AdmonitionParseOptions).effDbl = false from rfl, key]

theorem take4_ne_nil (c : Str) (h : c.take 4 = spaces4) : c ≠ [] := by
  intro he
  subst he
  simp [spaces4] at h

theorem take4_head (c : Str) (h : c.take 4 = spaces4) : c.head? = some ' ' := by
  cases c with
  | nil => simp [spaces4] at h
  | cons a t =>
    rw [show (4 : Nat) = 3 + 1 from rfl, List.take_succ_cons] at h
    simp only [spaces4] at h
    obtain ⟨ha, -⟩ := List.cons.inj h
    rw [List.head?_cons, ha]

theorem extractGo_step_content (L : List Str) (f line : Nat) (acc : List Str)
    (saw : Bool) (emptyRun : Nat) (hl : line < L.length)
    (hc : ¬ L.getD line [] = []) (htab : ¬ (L.getD line []).head? = some '\t')
    (htake : (L.getD line []).take 4 = spaces4) :
    extractGo L true (f + 1) line acc saw emptyRun =
      extractGo L true f (line + 1) (acc ++ [(L.getD line []).drop 4]) true 0 := by
  rw [extractGo_succ, if_pos hl, if_neg hc, if_neg htab, if_pos htake]

theorem extractGo_step_blank_cont (L : List Str) (f line : Nat) (acc : List Str)
    (saw : Bool) (emptyRun : Nat) (hl : line < L.length)
    (hb : L.getD line [] = []) (hr : ¬ 2 ≤ emptyRun + 1) :
    extractGo L true (f + 1) line acc saw emptyRun =
      extractGo L true f (line + 1) (acc ++ [[]]) saw (emptyRun + 1) := by
  rw [extractGo_succ, if_pos hl, if_pos hb, if_neg (fun hcontra => hr hcontra.2)]

theorem extractGo_step_blank_break (L : List Str) (f line : Nat) (acc : List Str)
    (saw : Bool) (emptyRun : Nat) (hl : line < L.length)
    (hb : L.getD line [] = []) (hr : 2 ≤ emptyRun + 1) :
    extractGo L true (f + 1) line acc saw emptyRun = (acc, line, saw) := by
  rw [extractGo_succ, if_pos hl, if_pos hb, if_pos ⟨rfl, hr⟩]

/-- C1 counterexample: with `endOnDoubleBlank` enabled and a four-space
content line followed by two blank lines, the claim predicts that `endLine`
lands on the first of the two blank lines (index 1) and that no blank line
appears in `contentLines`; the code instead stops with `endLine` at the
second blank line and the first blank pushed as an empty content entry. -/
theorem claim_c1_counterexample :
    ¬ (∀ (c : Str) (rest : List Str), c.take 4 = spaces4 →
        ∀ r : ExtractResult,
          extractContentFromLines (c :: [] :: [] :: rest) 0 ⟨some true⟩ = some r →
          r.endLine = 1 ∧ [] ∉ r.contentLines) := by
  intro hclaim
  have h := hclaim [' ',' ',' ',' ','a'] [] (by decide) ⟨[['a'], []], 2⟩ (by decide)
  exact absurd h.1 (by decide)

/-- C1 (amended): with `endOnDoubleBlank` enabled, a content block followed
by exactly one blank line and then more indented text continues the same
block, the blank becoming one empty content entry; a content block followed
by two consecutive blank lines stops when the consecutive-blank counter
reaches 2, with `endLine` at the second of the two blank lines: the first
blank line appears in `contentLines` as one empty entry and the second blank
line is excluded. -/
theorem claim_c1_amended :
    (∀ (c1 c2 : Str) (rest : List Str),
      c1.take 4 = spaces4 → c2.take 4 = spaces4 →
      ∃ r : ExtractResult,
        extractContentFromLines (c1 :: [] :: c2 :: rest) 0 ⟨some true⟩ = some r ∧
        r.contentLines.take 3 = [c1.drop 4, [], c2.drop 4] ∧ 3 ≤ r.endLine) ∧
    (∀ (c1 : Str) (rest : List Str), c1.take 4 = spaces4 →
      extractContentFromLines (c1 :: [] :: [] :: rest) 0 ⟨some true⟩ =
        some ⟨[c1.drop 4, []], 2⟩) := by
  constructor
  · intro c1 c2 rest h1 h2
    have hne1 := take4_ne_nil c1 h1
    have htab1 : ¬ c1.head? = some '\t' := by
      rw [take4_head c1 h1]
      decide
    have hne2 := take4_ne_nil c2 h2
    have htab2 : ¬ c2.head? = some '\t' := by
      rw [take4_head c2 h2]
      decide
    have hlen : (c1 :: [] :: c2 :: rest).length = rest.length + 3 := by
      simp only [List.length_cons]
    simp only [extractContentFromLines]
    rw [show ((⟨some true⟩ : AdmonitionParseOptions).effDbl) = true from rfl, hlen,
      show rest.length + 3 = rest.length + 2 + 1 from rfl]
    rw [extractGo_step_content _ _ _ _ _ _
      (by simp only [List.length_cons]; omega)
      (by simpa using hne1) (by simpa using htab1) (by simpa using h1)]
    rw [show rest.length + 2 = rest.length + 1 + 1 from rfl]
    rw [extractGo_step_blank_cont _ _ _ _ _ _
      (by simp only [List.length_cons]; omega) (by simp) (by omega)]
    rw [extractGo_step_content _ _ _ _ _ _
      (by simp only [List.length_cons]; omega)
      (by simpa using hne2) (by simpa using htab2) (by simpa using h2)]
    simp only [List.getD_cons_zero, List.getD_cons_succ, List.nil_append,
      List.singleton_append, List.cons_append, List.append_nil]
    obtain ⟨tail, sawOut, heq, hsaw, hbound, hstep, hterm⟩ :=
      extractGo_spec (c1 :: [] :: c2 :: rest) true rest.length 3
        [c1.drop 4, [], c2.drop 4] true 0 (by simp only [List.length_cons]; omega)
    rw [heq, hsaw.2 (Or.inl rfl)]
    refine ⟨⟨([c1.drop 4, [], c2.drop 4] : List Str) ++ tail, 3 + tail.length⟩,
      ?_, ?_, ?_⟩
    · rw [if_pos rfl]
    · exact List.take_left' (by simp)
    · exact Nat.le_add_right 3 tail.length
  · intro c1 rest h1
    have hne1 := take4_ne_nil c1 h1
    have htab1 : ¬ c1.head? = some '\t' := by
      rw [take4_head c1 h1]
      decide
    have hlen : (c1 :: [] :: [] :: rest).length = rest.length + 3 := by
      simp only [List.length_cons]
    simp only [extractContentFromLines]
    rw [show ((⟨some true⟩ : AdmonitionParseOptions).effDbl) = true from rfl, hlen,
      show rest.length + 3 = rest.length + 2 + 1 from rfl]
    rw [extractGo_step_content _ _ _ _ _ _
      (by simp only [List.length_cons]; omega)
      (by simpa using hne1) (by simpa using htab1) (by simpa using h1)]
    rw [show rest.length + 2 = rest.length + 1 + 1 from rfl]
    rw [extractGo_step_blank_cont _ _ _ _ _ _
      (by simp only [List.length_cons]; omega) (by simp) (by omega)]
    rw [extractGo_step_blank_break _ _ _ _ _ _
      (by simp only [List.length_cons]; omega) (by simp) (by omega)]
    simp

/-- C1 witness: the amended boundary behaviour on concrete buffers. -/
theorem claim_c1_witness :
    (∃ r : ExtractResult,
      extractContentFromLines
          [[' ',' ',' ',' ','a'], [], [' ',' ',' ',' ','b']] 0 ⟨some true⟩ = some r ∧
        r.contentLines.take 3 = [['a'], [], ['b']] ∧ 3 ≤ r.endLine) ∧
    extractContentFromLines [[' ',' ',' ',' ','a'], [], []] 0 ⟨some true⟩ =
      some ⟨[['a'], []], 2⟩ := by
  constructor
  · have h := claim_c1_amended.1 [' ',' ',' ',' ','a'] [' ',' ',' ',' ','b'] []
      (by decide) (by decide)
    simpa using h
  · exact claim_c1_amended.2 [' ',' ',' ',' ','a'] [] (by decide)

/- ------------------------------------------------------------------
   C8: rejection path of the markdown-it block rule.
   ------------------------------------------------------------------ -/

theorem extractContentGo_succ (lines : List Str) (blkIndent endL fuel n : Nat)
    (acc : List Str) (saw : Bool) :
    extractContentGo lines blkIndent endL (fuel + 1) n acc saw =
      if n < endL then
        if lineIsEmpty (lines.getD n []) then
          extractContentGo lines blkIndent endL fuel (n + 1) (acc ++ [[]]) saw
        else if (sCountOf (lines.getD n []) : Int) - (blkIndent : Int) < 4 then
          (acc, n, saw)
        else
          extractContentGo lines blkIndent endL fuel (n + 1)
            (acc ++ [if ((lines.getD n []).drop blkIndent).head? = some '\t' then
                ((lines.getD n []).drop blkIndent).tail
              else ((lines.getD n []).drop blkIndent).drop
                (min (((lines.getD n []).drop blkIndent).takeWhile
                  (fun c => decide (c = ' '))).length 4)]) true
      else (acc, n, saw) := rfl

/-- If every candidate line in range is blank or insufficiently indented,
the `sawIndented` flag of `extractContent`'s scan stays false. -/
theorem extractContentGo_saw_false (lines : List Str) (blkIndent endL : Nat) :
    ∀ (fuel n : Nat) (acc : List Str),
      (∀ k, k < endL → n ≤ k →
        lineIsEmpty (lines.getD k []) = true ∨
        (sCountOf (lines.getD k []) : Int) - (blkIndent : Int) < 4) →
      (extractContentGo lines blkIndent endL fuel n acc false).2.2 = false := by
  intro fuel
  induction fuel with
  | zero =>
    intro n acc h
    rfl
  | succ fuel ih =>
    intro n acc h
    rw [extractContentGo_succ]
    by_cases hn : n < endL
    · rw [if_pos hn]
      by_cases he : lineIsEmpty (lines.getD n []) = true
      · rw [if_pos he]
        exact ih (n + 1) (acc ++ [[]]) (fun k hk hnk => h k hk (by omega))
      · rw [if_neg he]
        rcases h n hn (le_refl n) with h' | h'
        · exact absurd h' he
        · rw [if_pos h']
    · rw [if_neg hn]

/-- C8: when no candidate line after the header is accepted (every line in
range is blank or under four columns of relative indentation), the extractor
returns `null` even though blank lines were appended, and the block rule then
rejects: it returns `false`, pushes no token and leaves the parser's line
position untouched. All paths are total — no decision point throws. -/
theorem claim_c8_reject_leaves_state (st : MdState) (startLine endLine : Nat)
    (h : ∀ k, k < endLine → startLine + 1 ≤ k →
        lineIsEmpty (st.lines.getD k []) = true ∨
        (sCountOf (st.lines.getD k []) : Int) - (st.blkIndent : Int) < 4) :
    extractContent st.lines st.blkIndent (startLine + 1) endLine = none ∧
    mkdocsAdmonitionRule st startLine endLine false = (false, st) := by
  have hsawf := extractContentGo_saw_false st.lines st.blkIndent endLine endLine
      (startLine + 1) [] h
  have hex : extractContent st.lines st.blkIndent (startLine + 1) endLine = none := by
    simp only [extractContent]
    rw [hsawf]
    simp
  refine ⟨hex, ?_⟩
  simp only [mkdocsAdmonitionRule, hex]
  split
  · rfl
  · split
    · rfl
    · split
      · rfl
      · simp

/-- C8 witness: a header followed by an unindented line is rejected with the
state unchanged. -/
theorem claim_c8_witness :
    extractContent [['!','!','!',' ','n','o','t','e'], ['h','i']] 0 1 2 = none ∧
    mkdocsAdmonitionRule ⟨[['!','!','!',' ','n','o','t','e'], ['h','i']], 0, 0, []⟩
        0 2 false =
      (false, ⟨[['!','!','!',' ','n','o','t','e'], ['h','i']], 0, 0, []⟩) :=
  claim_c8_reject_leaves_state
    ⟨[['!','!','!',' ','n','o','t','e'], ['h','i']], 0, 0, []⟩ 0 2 (by decide)

/-- Characterisation of the reading-view extraction scan (`extractContent`,
main.ts): qualification is column-based — a non-blank line is consumed
exactly when its tab-expanded indentation relative to `blkIndent` is at
least four columns, and is then stripped by `stateStripped` (one leading
tab, or up to four leading literal spaces); a non-blank line under four
columns stops the scan. -/
theorem extractContentGo_spec (lines : List Str) (blkIndent endL : Nat) :
    ∀ (fuel n : Nat) (acc : List Str) (saw : Bool), endL ≤ fuel + n →
    ∃ (tail : List Str) (sawOut : Bool),
      extractContentGo lines blkIndent endL fuel n acc saw =
        (acc ++ tail, n + tail.length, sawOut) ∧
      (∀ k, k < tail.length →
        (lineIsEmpty (lines.getD (n + k) []) = true ∧ tail.getD k [] = []) ∨
        (lineIsEmpty (lines.getD (n + k) []) = false ∧
          4 ≤ (sCountOf (lines.getD (n + k) []) : Int) - (blkIndent : Int) ∧
          tail.getD k [] = stateStripped blkIndent (lines.getD (n + k) []))) ∧
      (endL ≤ n + tail.length ∨
        (lineIsEmpty (lines.getD (n + tail.length) []) = false ∧
          (sCountOf (lines.getD (n + tail.length) []) : Int) -
            (blkIndent : Int) < 4)) := by
  intro fuel
  induction fuel with
  | zero =>
    intro n acc saw h
    refine ⟨[], saw, by simp [extractContentGo], by simp, ?_⟩
    left
    simp only [List.length_nil, Nat.add_zero]
    omega
  | succ fuel ih =>
    intro n acc saw h
    by_cases hn : n < endL
    case neg =>
      refine ⟨[], saw, ?_, by simp, ?_⟩
      · rw [extractContentGo_succ, if_neg hn]
        simp
      · left
        simp only [List.length_nil, Nat.add_zero]
        omega
    case pos =>
    by_cases he : lineIsEmpty (lines.getD n []) = true
    · have hstep : extractContentGo lines blkIndent endL (fuel + 1) n acc saw =
          extractContentGo lines blkIndent endL fuel (n + 1) (acc ++ [[]]) saw := by
        rw [extractContentGo_succ, if_pos hn, if_pos he]
      obtain ⟨tail', sawOut, heq, hsteps, hterm⟩ :=
        ih (n + 1) (acc ++ [[]]) saw (by omega)
      refine ⟨[] :: tail', sawOut, ?_, ?_, ?_⟩
      · rw [hstep, heq]
        simp only [Prod.mk.injEq]
        refine ⟨by simp, ?_, trivial⟩
        simp only [List.length_cons]
        omega
      · intro k hk
        cases k with
        | zero =>
          simp only [Nat.add_zero, List.getD_cons_zero]
          exact Or.inl ⟨he, by trivial⟩
        | succ k =>
          simp only [List.getD_cons_succ]
          have e : n + (k + 1) = n + 1 + k := by omega
          rw [e]
          refine hsteps k ?_
          simp only [List.length_cons] at hk
          omega
      · have e : n + ([] :: tail').length = n + 1 + tail'.length := by
          simp only [List.length_cons]
          omega
        rw [e]
        exact hterm
    · by_cases hind : (sCountOf (lines.getD n []) : Int) - (blkIndent : Int) < 4
      · refine ⟨[], saw, ?_, by simp, ?_⟩
        · rw [extractContentGo_succ, if_pos hn, if_neg he, if_pos hind]
          simp
        · right
          refine ⟨?_, ?_⟩
          · simp only [List.length_nil, Nat.add_zero]
            simpa using he
          · simp only [List.length_nil, Nat.add_zero]
            exact hind
      · have hstep : extractContentGo lines blkIndent endL (fuel + 1) n acc saw =
            extractContentGo lines blkIndent endL fuel (n + 1)
              (acc ++ [stateStripped blkIndent (lines.getD n [])]) true := by
          rw [extractContentGo_succ, if_pos hn, if_neg he, if_neg hind]
          rfl
        obtain ⟨tail', sawOut, heq, hsteps, hterm⟩ :=
          ih (n + 1) (acc ++ [stateStripped blkIndent (lines.getD n [])]) true
            (by omega)
        refine ⟨stateStripped blkIndent (lines.getD n []) :: tail', sawOut,
          ?_, ?_, ?_⟩
        · rw [hstep, heq]
          simp only [Prod.mk.injEq]
          refine ⟨by simp, ?_, trivial⟩
          simp only [List.length_cons]
          omega
        · intro k hk
          cases k with
          | zero =>
            simp only [Nat.add_zero, List.getD_cons_zero]
            refine Or.inr ⟨by simpa using he, by omega, by trivial⟩
          | succ k =>
            simp only [List.getD_cons_succ]
            have e : n + (k + 1) = n + 1 + k := by omega
            rw [e]
            refine hsteps k ?_
            simp only [List.length_cons] at hk
            omega
        · have e : n + (stateStripped blkIndent (lines.getD n []) :: tail').length =
              n + 1 + tail'.length := by
            simp only [List.length_cons]
            omega
          rw [e]
          exact hterm

/-- Consequences of a successful reading-view extraction. -/
theorem extractContent_some_spec (lines : List Str) (blkIndent s endL : Nat)
    (r : StateExtract) (h : extractContent lines blkIndent s endL = some r) :
    ∃ entries : List Str,
      r.content = joinLines entries ∧
      s + entries.length = r.endLine ∧
      (∀ k, k < entries.length →
        (lineIsEmpty (lines.getD (s + k) []) = true ∧ entries.getD k [] = []) ∨
        (lineIsEmpty (lines.getD (s + k) []) = false ∧
          4 ≤ (sCountOf (lines.getD (s + k) []) : Int) - (blkIndent : Int) ∧
          entries.getD k [] = stateStripped blkIndent (lines.getD (s + k) []))) ∧
      (endL ≤ r.endLine ∨
        (lineIsEmpty (lines.getD r.endLine []) = false ∧
          (sCountOf (lines.getD r.endLine []) : Int) - (blkIndent : Int) < 4)) := by
  obtain ⟨tail, sawOut, heq, hsteps, hterm⟩ :=
    extractContentGo_spec lines blkIndent endL endL s [] false (by omega)
  have hval : extractContent lines blkIndent s endL =
      if sawOut = true then some ⟨joinLines tail, s + tail.length⟩ else none := by
    simp only [extractContent]
    rw [heq]
    simp
  rw [hval] at h
  by_cases hs : sawOut = true
  case neg =>
    rw [if_neg hs] at h
    cases h
  case pos =>
    rw [if_pos hs] at h
    have hr := Option.some.inj h
    subst hr
    exact ⟨tail, rfl, rfl, hsteps, hterm⟩

/-- C3 (amended): for every non-blank candidate line during content
extraction: in the line-based extractor (admonition.ts, mirrored by the
fallback post-processor), a line whose leading character is a tab is
consumed with exactly one tab stripped, otherwise it qualifies only if it
starts with four literal space characters (consumed with exactly those four
spaces stripped), and any other non-blank line terminates the scan
unconsumed — even one whose tab-expanded indentation reaches four columns;
in the reading-view extractor (main.ts), qualification is column-based —
a non-blank line is consumed exactly when its tab-expanded indentation
relative to the block's base indent is at least four columns, stripped of
one leading tab when tab-led and otherwise of up to four leading literal
spaces (exactly four columns only when the indentation is pure spaces) —
and a non-blank line under four columns terminates the scan unconsumed. -/
theorem claim_c3_amended :
    (∀ (lines : List Str) (s : Nat) (opts : AdmonitionParseOptions)
        (r : ExtractResult), extractContentFromLines lines s opts = some r →
      (∀ k, k < r.contentLines.length →
        (lines.getD (s + k) [] = [] ∧ r.contentLines.getD k [] = []) ∨
        ((lines.getD (s + k) []).head? = some '\t' ∧
          r.contentLines.getD k [] = (lines.getD (s + k) []).tail) ∨
        ((lines.getD (s + k) []).head? ≠ some '\t' ∧
          (lines.getD (s + k) []).take 4 = spaces4 ∧
          r.contentLines.getD k [] = (lines.getD (s + k) []).drop 4)) ∧
      (lines.length ≤ r.endLine ∨ lines.getD r.endLine [] = [] ∨
        ((lines.getD r.endLine []).head? ≠ some '\t' ∧
         (lines.getD r.endLine []).take 4 ≠ spaces4))) ∧
    (∀ (lines : List Str) (blkIndent s endL : Nat) (r : StateExtract),
      extractContent lines blkIndent s endL = some r →
      ∃ entries : List Str,
        r.content = joinLines entries ∧
        s + entries.length = r.endLine ∧
        (∀ k, k < entries.length →
          (lineIsEmpty (lines.getD (s + k) []) = true ∧
            entries.getD k [] = []) ∨
          (lineIsEmpty (lines.getD (s + k) []) = false ∧
            4 ≤ (sCountOf (lines.getD (s + k) []) : Int) - (blkIndent : Int) ∧
            entries.getD k [] = stateStripped blkIndent (lines.getD (s + k) []))) ∧
        (endL ≤ r.endLine ∨
          (lineIsEmpty (lines.getD r.endLine []) = false ∧
            (sCountOf (lines.getD r.endLine []) : Int) - (blkIndent : Int) < 4))) := by
  constructor
  · intro lines s opts r h
    obtain ⟨-, -, -, hstep, hterm⟩ := extractContentFromLines_some lines s opts r h
    refine ⟨fun k hk => hstep k hk, ?_⟩
    rcases hterm with h' | ⟨hb, -⟩ | h'
    · exact Or.inl h'
    · exact Or.inr (Or.inl hb)
    · exact Or.inr (Or.inr ⟨h'.2.1, h'.2.2⟩)
  · intro lines blkIndent s endL r h
    exact extractContent_some_spec lines blkIndent s endL r h

/-- C3 witness: the line-based trichotomy on a concrete run of the core
extractor, and the reading-view extractor consuming the three-spaces-plus-tab
line (four columns, only the three spaces stripped). -/
theorem claim_c3_witness :
    ((([[' ',' ',' ',' ','x']] : List Str).getD 0 [] = [] ∧
      ([['x']] : List Str).getD 0 [] = []) ∨
     ((([[' ',' ',' ',' ','x']] : List Str).getD 0 []).head? = some '\t' ∧
      ([['x']] : List Str).getD 0 [] =
        (([[' ',' ',' ',' ','x']] : List Str).getD 0 []).tail) ∨
     ((([[' ',' ',' ',' ','x']] : List Str).getD 0 []).head? ≠ some '\t' ∧
      (([[' ',' ',' ',' ','x']] : List Str).getD 0 []).take 4 = spaces4 ∧
      ([['x']] : List Str).getD 0 [] =
        (([[' ',' ',' ',' ','x']] : List Str).getD 0 []).drop 4)) ∧
    (∃ entries : List Str, (['\t','x'] : Str) = joinLines entries ∧
      0 + entries.length = 1) := by
  constructor
  · have h := (claim_c3_amended.1 [[' ',' ',' ',' ','x']] 0 {} ⟨[['x']], 1⟩
      (by decide)).1 0 (by decide)
    simpa using h
  · obtain ⟨entries, h1, h2, -, -⟩ :=
      claim_c3_amended.2 [[' ',' ',' ','\t','x']] 0 0 1 ⟨['\t','x'], 1⟩ (by decide)
    exact ⟨entries, h1, h2⟩

/- ------------------------------------------------------------------
   C4: the live range computation.
   ------------------------------------------------------------------ -/

theorem buildDecoGo_succ (lines : List Str) (dbl : Bool) (sel : List SelRange)
    (fuel line : Nat) (acc : List Deco) :
    buildDecoGo lines dbl sel (fuel + 1) line acc =
      if line < lines.length then
        match parseHeader (trimL (lines.getD line [])) with
        | none => buildDecoGo lines dbl sel fuel (line + 1) acc
        | some meta =>
          match extractContentFromLines lines (line + 1) ⟨some dbl⟩ with
          | none => buildDecoGo lines dbl sel fuel (line + 1) acc
          | some ex =>
            buildDecoGo lines dbl sel fuel ex.endLine
              (if selectionIntersects sel (lineFrom lines line)
                  (lineTo lines (ex.endLine - 1)) then acc
               else acc ++ [⟨lineFrom lines line, lineTo lines (ex.endLine - 1),
                 meta, joinLines ex.contentLines⟩])
      else acc := rfl

theorem buildBlocksGo_succ (lines : List Str) (dbl : Bool)
    (fuel line : Nat) (acc : List Deco) :
    buildBlocksGo lines dbl (fuel + 1) line acc =
      if line < lines.length then
        match parseHeader (trimL (lines.getD line [])) with
        | none => buildBlocksGo lines dbl fuel (line + 1) acc
        | some meta =>
          match extractContentFromLines lines (line + 1) ⟨some dbl⟩ with
          | none => buildBlocksGo lines dbl fuel (line + 1) acc
          | some ex =>
            buildBlocksGo lines dbl fuel ex.endLine
              (acc ++ [⟨lineFrom lines line, lineTo lines (ex.endLine - 1),
                meta, joinLines ex.contentLines⟩])
      else acc := rfl

theorem buildBlocksGo_acc (lines : List Str) (dbl : Bool) :
    ∀ (fuel line : Nat) (acc : List Deco),
      buildBlocksGo lines dbl fuel line acc =
        acc ++ buildBlocksGo lines dbl fuel line [] := by
  intro fuel
  induction fuel with
  | zero =>
    intro line acc
    simp [buildBlocksGo]
  | succ fuel ih =>
    intro line acc
    rw [buildBlocksGo_succ, buildBlocksGo_succ]
    by_cases hl : line < lines.length
    · rw [if_pos hl, if_pos hl]
      cases hp : parseHeader (trimL (lines.getD line [])) with
      | none =>
        simp only [hp]
        exact ih (line + 1) acc
      | some meta =>
        simp only [hp]
        cases he : extractContentFromLines lines (line + 1) ⟨some dbl⟩ with
        | none =>
          simp only [he]
          exact ih (line + 1) acc
        | some ex =>
          simp only [he]
          rw [ih ex.endLine
            (acc ++ [(⟨lineFrom lines line, lineTo lines (ex.endLine - 1),
              meta, joinLines ex.contentLines⟩ : Deco)])]
          rw [ih ex.endLine
            ([] ++ [(⟨lineFrom lines line, lineTo lines (ex.endLine - 1),
              meta, joinLines ex.contentLines⟩ : Deco)])]
          simp
    · rw [if_neg hl, if_neg hl]
      simp

theorem buildDecoGo_acc (lines : List Str) (dbl : Bool) (sel : List SelRange) :
    ∀ (fuel line : Nat) (acc : List Deco),
      buildDecoGo lines dbl sel fuel line acc =
        acc ++ buildDecoGo lines dbl sel fuel line [] := by
  intro fuel
  induction fuel with
  | zero =>
    intro line acc
    simp [buildDecoGo]
  | succ fuel ih =>
    intro line acc
    rw [buildDecoGo_succ, buildDecoGo_succ]
    by_cases hl : line < lines.length
    · rw [if_pos hl, if_pos hl]
      cases hp : parseHeader (trimL (lines.getD line [])) with
      | none =>
        simp only [hp]
        exact ih (line + 1) acc
      | some meta =>
        simp only [hp]
        cases he : extractContentFromLines lines (line + 1) ⟨some dbl⟩ with
        | none =>
          simp only [he]
          exact ih (line + 1) acc
        | some ex =>
          simp only [he]
          by_cases hi : selectionIntersects sel (lineFrom lines line)
              (lineTo lines (ex.endLine - 1)) = true
          · rw [if_pos hi, if_pos hi]
            exact ih ex.endLine acc
          · rw [if_neg hi, if_neg hi]
            rw [ih ex.endLine
              (acc ++ [(⟨lineFrom lines line, lineTo lines (ex.endLine - 1),
                meta, joinLines ex.contentLines⟩ : Deco)])]
            rw [ih ex.endLine
              ([] ++ [(⟨lineFrom lines line, lineTo lines (ex.endLine - 1),
                meta, joinLines ex.contentLines⟩ : Deco)])]
            simp
    · rw [if_neg hl, if_neg hl]
      simp

/-- A successful extraction consumed at least one line. -/
theorem extract_some_lower (lines : List Str) (s : Nat)
    (opts : AdmonitionParseOptions) (r : ExtractResult)
    (h : extractContentFromLines lines s opts = some r) : s + 1 ≤ r.endLine := by
  obtain ⟨h1, -, ⟨k, hk, -⟩, -, -⟩ := extractContentFromLines_some lines s opts r h
  omega

theorem lineFrom_succ (lines : List Str) (i : Nat) :
    lineFrom lines (i + 1) = lineFrom lines i + (lines.getD i []).length + 1 := rfl

theorem lineFrom_mono (lines : List Str) :
    ∀ i j : Nat, i ≤ j → lineFrom lines i ≤ lineFrom lines j := by
  intro i j hij
  induction j with
  | zero =>
    have : i = 0 := by omega
    subst this
    exact le_refl _
  | succ j ihj =>
    rcases Nat.lt_or_ge i (j + 1) with h' | h'
    · have h2 := ihj (by omega)
      rw [lineFrom_succ]
      omega
    · have : i = j + 1 := by omega
      subst this
      exact le_refl _

theorem lineFrom_le_lineTo (lines : List Str) (i : Nat) :
    lineFrom lines i ≤ lineTo lines i := by
  rw [lineTo]
  omega

theorem lineTo_lt_lineFrom_succ (lines : List Str) (i : Nat) :
    lineTo lines i < lineFrom lines (i + 1) := by
  rw [lineFrom_succ, lineTo]
  omega

/-- Emitted widget ranges are exactly the recognized blocks that do not
intersect the selection: the selection never changes which lines are scanned
or which blocks are recognized, only which of them emit a range. -/
theorem buildDecoGo_filter (lines : List Str) (dbl : Bool) (sel : List SelRange) :
    ∀ (fuel line : Nat),
      buildDecoGo lines dbl sel fuel line [] =
        (buildBlocksGo lines dbl fuel line []).filter
          (fun d => !selectionIntersects sel d.dfrom d.dto) := by
  intro fuel
  induction fuel with
  | zero =>
    intro line
    simp [buildDecoGo, buildBlocksGo]
  | succ fuel ih =>
    intro line
    rw [buildDecoGo_succ, buildBlocksGo_succ]
    by_cases hl : line < lines.length
    · rw [if_pos hl, if_pos hl]
      cases hp : parseHeader (trimL (lines.getD line [])) with
      | none =>
        simp only [hp]
        exact ih (line + 1)
      | some meta =>
        simp only [hp]
        cases he : extractContentFromLines lines (line + 1) ⟨some dbl⟩ with
        | none =>
          simp only [he]
          exact ih (line + 1)
        | some ex =>
          simp only [he]
          rw [buildBlocksGo_acc lines dbl fuel ex.endLine]
          rw [List.filter_append]
          by_cases hi : selectionIntersects sel (lineFrom lines line)
              (lineTo lines (ex.endLine - 1)) = true
          · rw [if_pos hi]
            have hfd : (([] : List Deco) ++
                [(⟨lineFrom lines line, lineTo lines (ex.endLine - 1), meta,
                  joinLines ex.contentLines⟩ : Deco)]).filter
                  (fun d => !selectionIntersects sel d.dfrom d.dto) = [] := by
              simp [hi]
            rw [hfd, List.nil_append]
            exact ih ex.endLine
          · rw [if_neg hi]
            have hfd : (([] : List Deco) ++
                [(⟨lineFrom lines line, lineTo lines (ex.endLine - 1), meta,
                  joinLines ex.contentLines⟩ : Deco)]).filter
                  (fun d => !selectionIntersects sel d.dfrom d.dto) =
                [] ++ [(⟨lineFrom lines line, lineTo lines (ex.endLine - 1), meta,
                  joinLines ex.contentLines⟩ : Deco)] := by
              simp [hi]
            rw [hfd]
            rw [buildDecoGo_acc lines dbl sel fuel ex.endLine]
            rw [ih ex.endLine]
    · rw [if_neg hl, if_neg hl]
      simp

theorem buildBlocksGo_lb (lines : List Str) (dbl : Bool) :
    ∀ (fuel line : Nat) (d : Deco), d ∈ buildBlocksGo lines dbl fuel line [] →
      lineFrom lines line ≤ d.dfrom ∧ d.dfrom ≤ d.dto := by
  intro fuel
  induction fuel with
  | zero =>
    intro line d hd
    simp [buildBlocksGo] at hd
  | succ fuel ih =>
    intro line d hd
    rw [buildBlocksGo_succ] at hd
    by_cases hl : line < lines.length
    · rw [if_pos hl] at hd
      cases hp : parseHeader (trimL (lines.getD line [])) with
      | none =>
        simp only [hp] at hd
        have h2 := ih (line + 1) d hd
        exact ⟨le_trans (lineFrom_mono lines line (line + 1) (by omega)) h2.1, h2.2⟩
      | some meta =>
        simp only [hp] at hd
        cases he : extractContentFromLines lines (line + 1) ⟨some dbl⟩ with
        | none =>
          simp only [he] at hd
          have h2 := ih (line + 1) d hd
          exact ⟨le_trans (lineFrom_mono lines line (line + 1) (by omega)) h2.1, h2.2⟩
        | some ex =>
          simp only [he] at hd
          rw [buildBlocksGo_acc] at hd
          rcases List.mem_append.mp hd with hmem | hmem
          · simp at hmem
            subst hmem
            have hlow := extract_some_lower lines (line + 1) ⟨some dbl⟩ ex he
            refine ⟨le_refl _, ?_⟩
            calc lineFrom lines line
                ≤ lineFrom lines (ex.endLine - 1) :=
                  lineFrom_mono lines line (ex.endLine - 1) (by omega)
              _ ≤ lineTo lines (ex.endLine - 1) := lineFrom_le_lineTo lines _
          · have h2 := ih ex.endLine d hmem
            have hlow := extract_some_lower lines (line + 1) ⟨some dbl⟩ ex he
            exact ⟨le_trans (lineFrom_mono lines line ex.endLine (by omega)) h2.1, h2.2⟩
    · rw [if_neg hl] at hd
      simp at hd

theorem buildBlocksGo_pairwise (lines : List Str) (dbl : Bool) :
    ∀ (fuel line : Nat),
      List.Pairwise (fun a b : Deco => a.dto < b.dfrom)
        (buildBlocksGo lines dbl fuel line []) := by
  intro fuel
  induction fuel with
  | zero =>
    intro line
    simp [buildBlocksGo]
  | succ fuel ih =>
    intro line
    rw [buildBlocksGo_succ]
    by_cases hl : line < lines.length
    · rw [if_pos hl]
      cases hp : parseHeader (trimL (lines.getD line [])) with
      | none =>
        simp only [hp]
        exact ih (line + 1)
      | some meta =>
        simp only [hp]
        cases he : extractContentFromLines lines (line + 1) ⟨some dbl⟩ with
        | none =>
          simp only [he]
          exact ih (line + 1)
        | some ex =>
          simp only [he]
          rw [buildBlocksGo_acc, List.nil_append, List.singleton_append]
          refine List.pairwise_cons.mpr ⟨?_, ih ex.endLine⟩
          intro d' hd'
          have hlb := buildBlocksGo_lb lines dbl fuel ex.endLine d' hd'
          have hlow := extract_some_lower lines (line + 1) ⟨some dbl⟩ ex he
          have h3 : lineTo lines (ex.endLine - 1) < lineFrom lines ex.endLine := by
            have h4 := lineTo_lt_lineFrom_succ lines (ex.endLine - 1)
            rw [show ex.endLine - 1 + 1 = ex.endLine from by omega] at h4
            exact h4
          exact lt_of_lt_of_le h3 hlb.1
    · rw [if_neg hl]
      simp

/-- C4: in one live range computation pass (live preview enabled), the
emitted ranges are exactly the recognized blocks whose span does not
intersect the selection — a block that intersects produces no widget but the
scan still advances past it, because the set of recognized blocks and scan
positions does not depend on the selection at all; the emitted replace
ranges are strictly ordered and pairwise disjoint; and the intersection test
is inclusive on both ends, so touching endpoints counts as overlap. -/
theorem claim_c4_live_ranges (lines : List Str) (sel : List SelRange) (dbl : Bool) :
    buildDecorations lines sel dbl true =
      (recognizedBlocks lines dbl).filter
        (fun d => !selectionIntersects sel d.dfrom d.dto) ∧
    List.Pairwise (fun a b : Deco => a.dto < b.dfrom)
      (buildDecorations lines sel dbl true) ∧
    (∀ f t : Nat, selectionIntersects sel f t = true ↔
      ∃ r ∈ sel, r.rfrom ≤ t ∧ f ≤ r.rto) := by
  have hfilter : buildDecorations lines sel dbl true =
      (recognizedBlocks lines dbl).filter
        (fun d => !selectionIntersects sel d.dfrom d.dto) :=
    buildDecoGo_filter lines dbl sel lines.length 0
  refine ⟨hfilter, ?_, ?_⟩
  · rw [hfilter]
    exact List.Pairwise.sublist (List.filter_sublist _)
      (buildBlocksGo_pairwise lines dbl lines.length 0)
  · intro f t
    simp [selectionIntersects]

/- ------------------------------------------------------------------
   Header and title parsing: C5, C6, C7, C9.
   ------------------------------------------------------------------ -/

theorem asciiLetter_not_ws (c : Char) (h : asciiLetter c = true) :
    jsWhitespace c = false := by
  simp only [asciiLetter, decide_eq_true_eq] at h
  simp only [jsWhitespace, decide_eq_false_iff_not]
  omega

theorem ws_ne_plus (c : Char) (h : jsWhitespace c = true) : c ≠ '+' := by
  intro he
  subst he
  exact absurd h (by decide)

theorem takeWhile_dropWhile_append (p : Char → Bool) (l1 l2 : Str)
    (h1 : ∀ x ∈ l1, p x = true)
    (h2 : ∀ c rest, l2 = c :: rest → p c = false) :
    (l1 ++ l2).takeWhile p = l1 ∧ (l1 ++ l2).dropWhile p = l2 := by
  induction l1 with
  | nil =>
    simp only [List.nil_append]
    cases l2 with
    | nil => simp
    | cons c rest =>
      have hc := h2 c rest rfl
      constructor
      · exact List.takeWhile_cons_of_neg (by simp [hc])
      · rw [List.dropWhile_cons, if_neg (by simp [hc])]
  | cons a t ih =>
    have ha := h1 a (List.mem_cons_self a t)
    obtain ⟨ih1, ih2⟩ := ih (fun x hx => h1 x (List.mem_cons_of_mem a hx))
    constructor
    · rw [List.cons_append, List.takeWhile_cons_of_pos (by simp [ha]), ih1]
    · rw [List.cons_append, List.dropWhile_cons, if_pos (by simp [ha]), ih2]

theorem dropWhile_head_not (p : Char → Bool) (l : Str) :
    ∀ c rest, l.dropWhile p = c :: rest → p c = false := by
  induction l with
  | nil =>
    intro c rest h
    cases h
  | cons a t ih =>
    intro c rest h
    rw [List.dropWhile_cons] at h
    by_cases hp : p a = true
    · rw [if_pos hp] at h
      exact ih c rest h
    · rw [if_neg hp] at h
      obtain ⟨h1, -⟩ := List.cons.inj h
      subst h1
      simpa using hp

theorem matchMarker_decomp (l marker rest : Str)
    (h : matchMarker l = some (marker, rest)) :
    l = marker ++ rest ∧
      (marker = ['!','!','!'] ∨ marker = ['?','?','?'] ∨
        marker = ['?','?','?','+']) := by
  simp only [matchMarker] at h
  split at h
  case isTrue h3 =>
    rw [Option.some.injEq, Prod.mk.injEq] at h
    obtain ⟨h1, h2⟩ := h
    subst h1
    subst h2
    exact ⟨by rw [← h3]; exact (List.take_append_drop 3 l).symm, Or.inl rfl⟩
  case isFalse h3 =>
    split at h
    case isTrue h4 =>
      rw [Option.some.injEq, Prod.mk.injEq] at h
      obtain ⟨h1, h2⟩ := h
      subst h1
      subst h2
      exact ⟨by rw [← h4]; exact (List.take_append_drop 4 l).symm,
        Or.inr (Or.inr rfl)⟩
    case isFalse h4 =>
      split at h
      case isTrue h5 =>
        rw [Option.some.injEq, Prod.mk.injEq] at h
        obtain ⟨h1, h2⟩ := h
        subst h1
        subst h2
        exact ⟨by rw [← h5]; exact (List.take_append_drop 3 l).symm,
          Or.inr (Or.inl rfl)⟩
      case isFalse h5 => cases h

theorem matchMarker_bbb (R : Str) :
    matchMarker (['!','!','!'] ++ R) = some (['!','!','!'], R) := by
  simp only [matchMarker]
  rw [if_pos (show (['!','!','!'] ++ R).take 3 = ['!','!','!'] from rfl)]
  rw [show (['!','!','!'] ++ R).drop 3 = R from rfl]

theorem matchMarker_qqqp (R : Str) :
    matchMarker (['?','?','?','+'] ++ R) = some (['?','?','?','+'], R) := by
  simp only [matchMarker]
  rw [if_neg (by
    rw [show (['?','?','?','+'] ++ R).take 3 = ['?','?','?'] from rfl]
    decide)]
  rw [if_pos (show (['?','?','?','+'] ++ R).take 4 = ['?','?','?','+'] from rfl)]
  rw [show (['?','?','?','+'] ++ R).drop 4 = R from rfl]

theorem matchMarker_qqq (w0 : Char) (R : Str) (hw : w0 ≠ '+') :
    matchMarker (['?','?','?'] ++ w0 :: R) = some (['?','?','?'], w0 :: R) := by
  simp only [matchMarker]
  rw [if_neg (by
    rw [show (['?','?','?'] ++ w0 :: R).take 3 = ['?','?','?'] from rfl]
    decide)]
  rw [if_neg (by
    rw [show (['?','?','?'] ++ w0 :: R).take 4 = ['?','?','?', w0] from rfl]
    intro hcontra
    apply hw
    simpa using hcontra)]
  rw [if_pos (show (['?','?','?'] ++ w0 :: R).take 3 = ['?','?','?'] from rfl)]
  rw [show (['?','?','?'] ++ w0 :: R).drop 3 = w0 :: R from rfl]

/-- Decomposition provided by a successful `headerMatch`. -/
theorem headerMatch_some (line marker tok rest : Str)
    (h : headerMatch line = some (marker, tok, rest)) :
    ∃ (ws : Str) (c : Char) (tokTail : Str),
      tok = c :: tokTail ∧
      line = marker ++ (ws ++ (c :: (tokTail ++ rest))) ∧
      (marker = ['!','!','!'] ∨ marker = ['?','?','?'] ∨
        marker = ['?','?','?','+']) ∧
      ws ≠ [] ∧ (∀ x ∈ ws, jsWhitespace x = true) ∧
      asciiLetter c = true ∧ (∀ x ∈ tokTail, wordChar x = true) ∧
      (∀ c' rest', rest = c' :: rest' → wordChar c' = false) ∧
      (∀ x ∈ rest, jsLineTerm x = false) := by
  cases hm : matchMarker line with
  | none =>
    simp only [headerMatch, hm] at h
    cases h
  | some mr =>
    obtain ⟨m0, r0⟩ := mr
    simp only [headerMatch, hm] at h
    by_cases hws : r0.takeWhile jsWhitespace = []
    · rw [if_pos hws] at h
      cases h
    · rw [if_neg hws] at h
      cases hdw : r0.dropWhile jsWhitespace with
      | nil =>
        simp only [hdw] at h
        cases h
      | cons c tl =>
        simp only [hdw] at h
        by_cases hlet : asciiLetter c = true
        · rw [if_pos hlet] at h
          by_cases hterm : (tl.dropWhile wordChar).any jsLineTerm = true
          · rw [if_pos hterm] at h
            cases h
          · rw [if_neg hterm] at h
            rw [Option.some.injEq, Prod.mk.injEq, Prod.mk.injEq] at h
            obtain ⟨hm0, htok, hrest⟩ := h
            rw [hm0] at hm
            subst htok
            subst hrest
            obtain ⟨hline, hmark⟩ := matchMarker_decomp line marker r0 hm
            refine ⟨r0.takeWhile jsWhitespace, c, tl.takeWhile wordChar, rfl,
              ?_, hmark, hws, ?_, hlet, ?_, ?_, ?_⟩
            · rw [hline]
              congr 1
              rw [List.takeWhile_append_dropWhile wordChar tl, ← hdw]
              exact (List.takeWhile_append_dropWhile jsWhitespace r0).symm
            · intro x hx
              exact List.mem_takeWhile_imp hx
            · intro x hx
              exact List.mem_takeWhile_imp hx
            · intro c' rest' he
              exact dropWhile_head_not wordChar tl c' rest' he
            · intro x hx
              have := List.any_eq_false.mp (by simpa using hterm) x hx
              simpa using this
        · rw [if_neg hlet] at h
          cases h

/-- A decomposed header line is accepted by `headerMatch` with exactly the
decomposed marker, token and title region. -/
theorem headerMatch_build (marker ws : Str) (c : Char) (tokTail rest : Str)
    (hm : marker = ['!','!','!'] ∨ marker = ['?','?','?'] ∨
      marker = ['?','?','?','+'])
    (hws : ws ≠ []) (hwsall : ∀ x ∈ ws, jsWhitespace x = true)
    (hc : asciiLetter c = true) (htok : ∀ x ∈ tokTail, wordChar x = true)
    (hresthead : ∀ c' rest', rest = c' :: rest' → wordChar c' = false)
    (hrestterm : ∀ x ∈ rest, jsLineTerm x = false) :
    headerMatch (marker ++ (ws ++ (c :: (tokTail ++ rest)))) =
      some (marker, c :: tokTail, rest) := by
  have hmm : matchMarker (marker ++ (ws ++ (c :: (tokTail ++ rest)))) =
      some (marker, ws ++ (c :: (tokTail ++ rest))) := by
    rcases hm with h | h | h <;> subst h
    · exact matchMarker_bbb _
    · cases ws with
      | nil => exact absurd rfl hws
      | cons w0 ws' =>
        have hw0 := ws_ne_plus w0 (hwsall w0 (List.mem_cons_self w0 ws'))
        simpa using matchMarker_qqq w0 (ws' ++ (c :: (tokTail ++ rest))) hw0
    · exact matchMarker_qqqp _
  obtain ⟨htw, hdw⟩ := takeWhile_dropWhile_append jsWhitespace ws
    (c :: (tokTail ++ rest)) hwsall
    (fun c' r' he => by
      obtain ⟨he1, -⟩ := List.cons.inj he
      rw [← he1]
      exact asciiLetter_not_ws c hc)
  obtain ⟨htw2, hdw2⟩ := takeWhile_dropWhile_append wordChar tokTail rest
    htok hresthead
  have hany : rest.any jsLineTerm = false :=
    List.any_eq_false.mpr (fun x hx => by simp [hrestterm x hx])
  simp only [headerMatch, hmm, htw, hdw, htw2, hdw2]
  rw [if_neg hws, if_pos hc, if_neg (by simp [hany])]

/-- C6: `parseHeader` accepts a line exactly when it decomposes into one of
the three markers `!!!`, `???`, `???+`, at least one whitespace character,
and a type token starting with a letter followed by word characters; the
remainder is the title region (free of line terminators, which cannot occur
in a document line). Any other shape yields the `null` result — parsing is
total and never throws. -/
theorem claim_c6_header_acceptance (line : Str) :
    (parseHeader line).isSome = true ↔
      ∃ (marker ws : Str) (c : Char) (tokTail rest : Str),
        line = marker ++ (ws ++ (c :: (tokTail ++ rest))) ∧
        (marker = ['!','!','!'] ∨ marker = ['?','?','?'] ∨
          marker = ['?','?','?','+']) ∧
        ws ≠ [] ∧ (∀ x ∈ ws, jsWhitespace x = true) ∧
        asciiLetter c = true ∧ (∀ x ∈ tokTail, wordChar x = true) ∧
        (∀ c' rest', rest = c' :: rest' → wordChar c' = false) ∧
        (∀ x ∈ rest, jsLineTerm x = false) := by
  constructor
  · intro h
    cases hh : headerMatch line with
    | none =>
      rw [show parseHeader line = none by simp only [parseHeader, hh]] at h
      cases h
    | some trip =>
      obtain ⟨marker, tok, rest⟩ := trip
      obtain ⟨ws, c, tokTail, -, hline, hmark, hws, hwsall, hc, htok, hrh, hrt⟩ :=
        headerMatch_some line marker tok rest hh
      exact ⟨marker, ws, c, tokTail, rest, hline, hmark, hws, hwsall, hc,
        htok, hrh, hrt⟩
  · rintro ⟨marker, ws, c, tokTail, rest, hline, hmark, hws, hwsall, hc,
      htok, hrh, hrt⟩
    subst hline
    rw [show parseHeader (marker ++ (ws ++ (c :: (tokTail ++ rest)))) =
        some ⟨if VALID_TYPES.contains ((c :: tokTail).map lowerChar) then
            (c :: tokTail).map lowerChar else ['n','o','t','e'],
          parseTitle rest,
          marker.take 3 == ['?','?','?'],
          marker == ['?','?','?','+'] || marker == ['!','!','!']⟩ by
      simp only [parseHeader,
        headerMatch_build marker ws c tokTail rest hmark hws hwsall hc htok hrh hrt]]
    rfl

/-- C6 witness: a concrete line decomposes and is accepted. -/
theorem claim_c6_witness :
    (parseHeader ['!','!','!',' ','n','o','t','e']).isSome = true := by
  apply (claim_c6_header_acceptance ['!','!','!',' ','n','o','t','e']).mpr
  refine ⟨['!','!','!'], [' '], 'n', ['o','t','e'], [],
    ?_, ?_, ?_, ?_, ?_, ?_, ?_, ?_⟩
  · decide
  · decide
  · decide
  · decide
  · decide
  · decide
  · intro c' rest' he
    cases he
  · decide

/-- C5: for every accepted header the callout type is a member of the
whitelist: an unknown (lowercased) type token falls back to the default
`note` without rejecting the header, and a whitelisted token written in any
letter case is preserved as its lowercase form. -/
theorem claim_c5_type_whitelist (line marker tok rest : Str)
    (h : headerMatch line = some (marker, tok, rest)) :
    ∃ m : AdmonitionMeta, parseHeader line = some m ∧
      VALID_TYPES.contains m.calloutType = true ∧
      (VALID_TYPES.contains (tok.map lowerChar) = true →
        m.calloutType = tok.map lowerChar) ∧
      (VALID_TYPES.contains (tok.map lowerChar) = false →
        m.calloutType = ['n','o','t','e']) := by
  refine ⟨⟨if VALID_TYPES.contains (tok.map lowerChar) then tok.map lowerChar
      else ['n','o','t','e'], parseTitle rest,
      marker.take 3 == ['?','?','?'],
      marker == ['?','?','?','+'] || marker == ['!','!','!']⟩, ?_, ?_, ?_, ?_⟩
  · simp only [parseHeader, h]
  · by_cases hc : VALID_TYPES.contains (tok.map lowerChar) = true
    · rw [if_pos hc]
      exact hc
    · rw [if_neg hc]
      show VALID_TYPES.contains ['n','o','t','e'] = true
      decide
  · intro hc
    rw [if_pos hc]
  · intro hc
    rw [if_neg (by rw [hc]; exact Bool.false_ne_true)]

/-- C5 witness: an unknown upper-case type falls back to `note`. -/
theorem claim_c5_witness :
    ∃ m : AdmonitionMeta,
      parseHeader ['!','!','!',' ','B','O','G','U','S'] = some m ∧
      VALID_TYPES.contains m.calloutType = true ∧
      (VALID_TYPES.contains (['B','O','G','U','S'].map lowerChar) = true →
        m.calloutType = ['B','O','G','U','S'].map lowerChar) ∧
      (VALID_TYPES.contains (['B','O','G','U','S'].map lowerChar) = false →
        m.calloutType = ['n','o','t','e']) :=
  claim_c5_type_whitelist ['!','!','!',' ','B','O','G','U','S'] ['!','!','!']
    ['B','O','G','U','S'] [] (by decide)

theorem headerMatch_marker (line marker tok rest : Str)
    (h : headerMatch line = some (marker, tok, rest)) :
    marker = ['!','!','!'] ∨ marker = ['?','?','?'] ∨
      marker = ['?','?','?','+'] := by
  obtain ⟨-, -, -, -, -, hmark, -⟩ := headerMatch_some line marker tok rest h
  exact hmark

/-- The `open` attribute appears on the built container exactly when the
block is both collapsible and open. -/
theorem open_attr_mem (m : AdmonitionMeta) :
    ((openAttrName, ([] : Str)) ∈ (buildCalloutContainer m).attrs) ↔
      (m.collapsible = true ∧ m.openFlag = true) := by
  simp only [buildCalloutContainer]
  by_cases h : m.collapsible = true ∧ m.openFlag = true
  · rw [if_pos h]
    constructor
    · intro _
      exact h
    · intro _
      simp
  · rw [if_neg h]
    constructor
    · intro hmem
      exfalso
      simp only [List.append_nil, List.mem_singleton] at hmem
      have hfst : openAttrName = dataCalloutAttr := congrArg Prod.fst hmem
      exact absurd hfst (by decide)
    · intro hcontra
      exact absurd hcontra h

/-- C7: for every accepted header, `collapsible` holds exactly for the `???`
and `???+` markers, `open` holds exactly for `???+` and `!!!` (so `???`
alone gives `open = false`), and the rendered container carries the `open`
attribute only when the block is both collapsible and open — so the
`open = true` computed for the non-collapsible `!!!` marker never reaches
the output. -/
theorem claim_c7_markers (line marker tok rest : Str) (m : AdmonitionMeta)
    (h1 : headerMatch line = some (marker, tok, rest))
    (h2 : parseHeader line = some m) :
    (m.collapsible = true ↔
      (marker = ['?','?','?'] ∨ marker = ['?','?','?','+'])) ∧
    (m.openFlag = true ↔
      (marker = ['?','?','?','+'] ∨ marker = ['!','!','!'])) ∧
    (marker = ['?','?','?'] → m.openFlag = false) ∧
    (((openAttrName, ([] : Str)) ∈ (buildCalloutContainer m).attrs) ↔
      (m.collapsible = true ∧ m.openFlag = true)) := by
  simp only [parseHeader, h1] at h2
  have hm := Option.some.inj h2
  have hcol : m.collapsible = (marker.take 3 == ['?','?','?']) := by rw [← hm]
  have hopen : m.openFlag =
      (marker == ['?','?','?','+'] || marker == ['!','!','!']) := by rw [← hm]
  have hmark := headerMatch_marker line marker tok rest h1
  refine ⟨?_, ?_, ?_, open_attr_mem m⟩
  · rw [hcol]
    rcases hmark with hM | hM | hM <;> subst hM <;> decide
  · rw [hopen]
    rcases hmark with hM | hM | hM <;> subst hM <;> decide
  · intro hM
    rw [hopen, hM]
    decide

/-- C7 witness: a closed `???` header is collapsible, not open, and its
container carries no `open` attribute. -/
theorem claim_c7_witness :
    ((AdmonitionMeta.mk ['t','i','p'] none true false).collapsible = true ↔
      ((['?','?','?'] : Str) = ['?','?','?'] ∨
        (['?','?','?'] : Str) = ['?','?','?','+'])) ∧
    ((AdmonitionMeta.mk ['t','i','p'] none true false).openFlag = true ↔
      ((['?','?','?'] : Str) = ['?','?','?','+'] ∨
        (['?','?','?'] : Str) = ['!','!','!'])) ∧
    ((['?','?','?'] : Str) = ['?','?','?'] →
      (AdmonitionMeta.mk ['t','i','p'] none true false).openFlag = false) ∧
    (((openAttrName, ([] : Str)) ∈
        (buildCalloutContainer (AdmonitionMeta.mk ['t','i','p'] none true false)).attrs) ↔
      ((AdmonitionMeta.mk ['t','i','p'] none true false).collapsible = true ∧
        (AdmonitionMeta.mk ['t','i','p'] none true false).openFlag = true)) :=
  claim_c7_markers ['?','?','?',' ','t','i','p'] ['?','?','?'] ['t','i','p'] []
    (AdmonitionMeta.mk ['t','i','p'] none true false) (by decide) (by decide)

theorem findIdx?_first_aux (q : Char) :
    ∀ (pre post : Str) (i : Nat), q ∉ pre →
      (pre ++ q :: post).findIdx? (fun c => decide (c = q)) i =
        some (pre.length + i) := by
  intro pre
  induction pre with
  | nil =>
    intro post i hq
    rw [List.nil_append, List.findIdx?_cons, if_pos (by simp)]
    simp
  | cons a t ih =>
    intro post i hq
    have ha : ¬ (decide (a = q) = true) := by
      simp only [decide_eq_true_eq]
      intro he
      subst he
      exact hq (List.mem_cons_self a t)
    rw [List.cons_append, List.findIdx?_cons, if_neg ha,
      ih post (i + 1) (fun hmem => hq (List.mem_cons_of_mem a hmem))]
    congr 1
    simp only [List.length_cons]
    omega

theorem findIdx?_none_of_not_mem (q : Char) :
    ∀ (l : Str) (i : Nat), q ∉ l →
      l.findIdx? (fun c => decide (c = q)) i = none := by
  intro l
  induction l with
  | nil =>
    intro i h
    rfl
  | cons a t ih =>
    intro i hq
    have ha : ¬ (decide (a = q) = true) := by
      simp only [decide_eq_true_eq]
      intro he
      subst he
      exact hq (List.mem_cons_self a t)
    rw [List.findIdx?_cons, if_neg ha,
      ih (i + 1) (fun hmem => hq (List.mem_cons_of_mem a hmem))]

/-- C9: the title region parses leniently and totally: a whitespace-only
(or empty) region yields no title; a region opening with a double or single
quote yields the text strictly between that quote and its next occurrence;
with no closing quote it yields everything after the opening quote (lenient
fallback, not an error); any other region yields its trimmed text verbatim. -/
theorem claim_c9_title_parsing :
    (∀ raw : Str, (∀ x ∈ raw, jsWhitespace x = true) → parseTitle raw = none) ∧
    (∀ (raw pre post : Str) (q : Char), (q = '"' ∨ q = '\'') →
      trimL raw = q :: (pre ++ q :: post) → q ∉ pre →
      parseTitle raw = some pre) ∧
    (∀ (raw rest : Str) (q : Char), (q = '"' ∨ q = '\'') →
      trimL raw = q :: rest → q ∉ rest → parseTitle raw = some rest) ∧
    (∀ (raw rest : Str) (c : Char), trimL raw = c :: rest →
      c ≠ '"' → c ≠ '\'' → parseTitle raw = some (trimL raw)) := by
  refine ⟨?_, ?_, ?_, ?_⟩
  · intro raw hall
    have htrim : trimL raw = [] := by
      have h1 : raw.dropWhile jsWhitespace = [] :=
        List.dropWhile_eq_nil_iff.mpr (fun x hx => by simp [hall x hx])
      simp only [trimL, h1]
      rfl
    simp only [parseTitle, htrim]
  · intro raw pre post q hq htrim hnotin
    simp only [parseTitle, htrim]
    rw [if_pos hq, findIdx?_first_aux q pre post 0 hnotin]
    show some ((pre ++ q :: post).take (pre.length + 0)) = some pre
    rw [show pre.length + 0 = pre.length from rfl, List.take_left' rfl]
  · intro raw rest q hq htrim hnotin
    simp only [parseTitle, htrim]
    rw [if_pos hq, findIdx?_none_of_not_mem q rest 0 hnotin]
  · intro raw rest c htrim hc1 hc2
    simp only [parseTitle, htrim]
    rw [if_neg (by rintro (h | h) <;> [exact hc1 h; exact hc2 h])]

/-- C9 witness: the four title behaviours on concrete regions. -/
theorem claim_c9_witness :
    parseTitle [' ', ' '] = none ∧
    parseTitle ['"','H','i','"',' ','x'] = some ['H','i'] ∧
    parseTitle ['\'','H','i'] = some ['H','i'] ∧
    parseTitle [' ','H','i',' '] = some ['H','i'] := by
  refine ⟨?_, ?_, ?_, ?_⟩
  · exact claim_c9_title_parsing.1 [' ',' '] (by decide)
  · exact claim_c9_title_parsing.2.1 ['"','H','i','"',' ','x'] ['H','i']
      [' ','x'] '"' (Or.inl rfl) (by decide) (by decide)
  · exact claim_c9_title_parsing.2.2.1 ['\'','H','i'] ['H','i'] '\''
      (Or.inr rfl) (by decide) (by decide)
  · exact claim_c9_title_parsing.2.2.2 [' ','H','i',' '] ['i'] 'H'
      (by decide) (by decide) (by decide)

end Mkdocs
